import Mathlib

set_option maxHeartbeats 1000000

/- Formal model of the XML canonicalization and reconciliation core of
   Streamlit_XML_AI_Agent.py.

   Attribute text is modelled as lists of characters (`PyStr`).  An absent
   attribute is modelled as the empty string, matching the code's
   `elem.get(attr, "")` defaults.  Python `set`/`frozenset` values are
   modelled as `Finset`, and the insertion-ordered dictionaries are modelled
   either as first-match lookups over the generating list (for the
   first-occurrence-wins dictionaries) or as explicit association lists
   (for the hybrid-numbering pass). -/

abbrev PyStr := List Char

def pyOfString (s : String) : PyStr := s.data

/-- The whitespace characters removed by Python's `str.strip()` (ASCII range). -/
def isSpaceChar (c : Char) : Bool :=
  c == ' ' || c == '\t' || c == '\n' || c == '\r' || c == '\x0b' || c == '\x0c'

/-- Python `str.strip()`: drop leading and trailing whitespace. -/
def strip (s : PyStr) : PyStr :=
  ((s.dropWhile isSpaceChar).reverse.dropWhile isSpaceChar).reverse

/-- Python `text.split(",")` on a non-empty string: split at every comma. -/
def splitOnComma : PyStr → List PyStr
  | [] => [[]]
  | c :: cs =>
    if c = ',' then [] :: splitOnComma cs
    else
      match splitOnComma cs with
      | [] => [[c]]
      | t :: ts => (c :: t) :: ts

/-- `_split_field` (and the inner `_split`) of the source: split a
    comma-separated attribute into stripped, non-empty tokens; empty or
    missing input yields no tokens. -/
def _split_field (text : PyStr) : List PyStr :=
  if text = [] then []
  else ((splitOnComma text).map strip).filter (fun t => t ≠ [])

/-- Python `",".join(...)`. -/
def joinComma (l : List PyStr) : PyStr := List.intercalate [','] l

/-- Python `";".join(...)`. -/
def joinSemicolon (l : List PyStr) : PyStr := List.intercalate [';'] l

/- ------------------------------------------------------------------ -/
/- Data model: parsed XML elements relevant to the core.              -/
/- ------------------------------------------------------------------ -/

/-- A `<dependent>` child element: its `id` and `name` attributes. -/
structure Dependent where
  id : PyStr
  name : PyStr
deriving DecidableEq

/-- An `<option>` element: `name` and `value` attributes plus `<dependent>`
    children.  Missing attributes are the empty string. -/
structure OptionRec where
  name : PyStr
  value : PyStr
  deps : List Dependent
deriving DecidableEq

/-- The `dep_ids` list collected for one option (duplicates preserved). -/
def depIds (o : OptionRec) : List PyStr := o.deps.map (fun d => d.id)

/-- `set(dep_ids)`: the dependent-identifier set attached to each FlatItem. -/
def depIdSet (o : OptionRec) : Finset PyStr := (depIds o).toFinset

/-- The `dep_id_to_name` dictionary: the first-seen display name for a
    dependent identifier, scanning the document in order; unknown
    identifiers fall back to the empty string (`.get(dep_id, "")`). -/
def dep_id_to_name (doc : List OptionRec) (i : PyStr) : PyStr :=
  match (doc.flatMap (fun o => o.deps)).find? (fun d => d.id = i) with
  | some d => d.name
  | none => []

/-- One flattened (name, value, dependent-id-set) record. -/
structure FlatItem where
  name : PyStr
  value : PyStr
  deps : Finset PyStr
deriving DecidableEq

/-- `values[idx] if idx < len(values) else values[-1] if values else ""`. -/
def pairValue (values : List PyStr) (idx : Nat) : PyStr :=
  match values.get? idx with
  | some v => v
  | none =>
    match values.getLast? with
    | some v => v
    | none => []

/-- STEP 1 (per option): one FlatItem per name token. -/
def flatOfOption (o : OptionRec) : List FlatItem :=
  (_split_field o.name).enum.map (fun p =>
    { name := p.2, value := pairValue (_split_field o.value) p.1, deps := depIdSet o })

/-- STEP 1: the whole `flat` list. -/
def flatten (doc : List OptionRec) : List FlatItem := doc.flatMap flatOfOption

/-- STEP 2: `value_to_deps` — union of dependent-id sets over every FlatItem
    carrying a given value. -/
def value_to_deps (flat : List FlatItem) (v : PyStr) : Finset PyStr :=
  ((flat.filter (fun it => it.value = v)).map (fun it => it.deps)).foldr (· ∪ ·) ∅

/-- One merged output group (`seen_dep_sets` entry). -/
structure MergedGroup where
  names : List PyStr
  values : List PyStr
  deps : Finset PyStr
deriving DecidableEq

/-- Append an element to a list unless it is already present
    (`if x not in l: l.append(x)`). -/
def addNew (l : List PyStr) (x : PyStr) : List PyStr := if x ∈ l then l else l ++ [x]

/-- STEP 3, one item: find the group keyed by `key` (creating it at the end
    if absent) and add the item's name and value to it if not present. -/
def insertItem (key : Finset PyStr) (n v : PyStr) : List MergedGroup → List MergedGroup
  | [] => [⟨[n], [v], key⟩]
  | g :: gs =>
    if g.deps = key then ⟨addNew g.names n, addNew g.values v, g.deps⟩ :: gs
    else g :: insertItem key n v gs

/-- STEP 3: merge values with identical unified dependent sets, in
    first-encounter order of each distinct key. -/
def mergeGroups (u : PyStr → Finset PyStr) (flat : List FlatItem) : List MergedGroup :=
  flat.foldl (fun gs it => insertItem (u it.value) it.name it.value gs) []

/-- The `merged` list of `generate_clean_xml_from_root`. -/
def merged (doc : List OptionRec) : List MergedGroup :=
  mergeGroups (value_to_deps (flatten doc)) (flatten doc)

/-- STEP 4 (per group): rebuild one `<option>` element; dependents are
    emitted in lexicographic id order, names resolved through
    `dep_id_to_name` with empty-string fallback. -/
def rebuildOption (doc : List OptionRec) (g : MergedGroup) : OptionRec :=
  { name := joinComma g.names
    value := joinComma g.values
    deps := (g.deps.sort (· ≤ ·)).map (fun i => ⟨i, dep_id_to_name doc i⟩) }

/-- `generate_clean_xml_from_root`, modulo XML serialization: the list of
    rebuilt `<option>` elements (the pretty-printer only adds whitespace
    text nodes, so re-parsing the emitted XML recovers exactly these
    elements). -/
def generate_clean_xml_from_root (doc : List OptionRec) : List OptionRec :=
  (merged doc).map (rebuildOption doc)

/- ------------------------------------------------------------------ -/
/- Group Reconciler (export pass, lines 232-395 of the source).       -/
/- ------------------------------------------------------------------ -/

/-- `f"G{n}"`. -/
def gidStr (n : Nat) : PyStr := 'G' :: (Nat.repr n).data

/-- `sorted([f"{d.get('id')}:{d.get('name')}" for d in opt.findall("dependent")])`. -/
def depStrs (o : OptionRec) : List PyStr :=
  List.insertionSort (· ≤ ·) (o.deps.map (fun d => d.id ++ (':' :: d.name)))

/-- One entry of `original_groups`. -/
structure OrigGroup where
  gid : PyStr
  values_set : Finset PyStr
  names : List PyStr
  dependents : List PyStr
deriving DecidableEq

/-- `original_groups`: sequential identifiers G1, G2, … in document order. -/
def original_groups (doc : List OptionRec) : List OrigGroup :=
  doc.enum.map (fun p =>
    { gid := gidStr (p.1 + 1)
      values_set := (_split_field p.2.value).toFinset
      names := _split_field p.2.name
      dependents := depStrs p.2 })

/-- `original_group_set_to_id`: the first identifier assigned to a raw value
    set (first occurrence wins). -/
def original_group_set_to_id (doc : List OptionRec) (s : Finset PyStr) : Option PyStr :=
  ((original_groups doc).find? (fun og => og.values_set = s)).map (fun og => og.gid)

/-- `value_to_original_group_sets`: for each occurrence of `v` in an original
    record's value tokens, that record's raw value set, in document order. -/
def value_to_original_group_sets (doc : List OptionRec) (v : PyStr) : List (Finset PyStr) :=
  doc.flatMap (fun o =>
    ((_split_field o.value).filter (fun t => t = v)).map
      (fun _ => (_split_field o.value).toFinset))

/-- `value_to_original_deps`: union of the "id:name" dependent strings over
    every original record whose value tokens contain `v` (defaulting to the
    empty set). -/
def value_to_original_deps (doc : List OptionRec) (v : PyStr) : Finset PyStr :=
  ((doc.filter (fun o => v ∈ _split_field o.value)).map
      (fun o => (depStrs o).toFinset)).foldr (· ∪ ·) ∅

/-- The (name, value) pairs of the loop at lines 329-335, in document
    order, using the same positional pairing fallback as the flattener. -/
def origNamePairs (doc : List OptionRec) : List (PyStr × PyStr) :=
  doc.flatMap (fun o => (_split_field o.name).enum.map
    (fun p => (p.2, pairValue (_split_field o.value) p.1)))

/-- `value_to_original_name`: the first-seen original name paired with a
    (non-empty) value; missing lookups degrade to the empty string. -/
def value_to_original_name (doc : List OptionRec) (v : PyStr) : PyStr :=
  if v = [] then []
  else
    match (origNamePairs doc).find? (fun q => q.2 = v) with
    | some q => q.1
    | none => []

/-- One entry of `cleaned_groups`. -/
structure CleanGroup where
  names : List PyStr
  values : List PyStr
  dependents : List PyStr
  values_set : Finset PyStr
deriving DecidableEq

/-- `cleaned_groups`, built from a (re-parsed) canonical document. -/
def cleaned_groups_of (cdoc : List OptionRec) : List CleanGroup :=
  cdoc.map (fun o =>
    { names := _split_field o.name
      values := _split_field o.value
      dependents := depStrs o
      values_set := (_split_field o.value).toFinset })

/-- The cleaned groups the reconciliation pass actually sees for a given
    original document. -/
def cleaned_groups (doc : List OptionRec) : List CleanGroup :=
  cleaned_groups_of (generate_clean_xml_from_root doc)

/-- The hybrid-numbering loop: state is `next_g_index` and the
    `final_valueset_to_gid` dictionary (most recent assignment first). -/
def hybridAssign (orig2id : Finset PyStr → Option PyStr) :
    List CleanGroup → Nat → List (Finset PyStr × PyStr) → List PyStr
  | [], _, _ => []
  | cg :: rest, next, fmap =>
    match orig2id cg.values_set with
    | some gid => gid :: hybridAssign orig2id rest next ((cg.values_set, gid) :: fmap)
    | none =>
      match fmap.find? (fun p => p.1 = cg.values_set) with
      | some p => p.2 :: hybridAssign orig2id rest next fmap
      | none =>
        gidStr next :: hybridAssign orig2id rest (next + 1) ((cg.values_set, gidStr next) :: fmap)

/-- `final_group_assignments`: one final identifier per cleaned group, the
    fresh sequence starting at `g_count + 1`. -/
def final_group_assignments (doc : List OptionRec) : List PyStr :=
  hybridAssign (original_group_set_to_id doc) (cleaned_groups doc) (doc.length + 1) []

def nonModifiedStr : PyStr := pyOfString "Non-modified"

def modifiedStr : PyStr := pyOfString "Modified"

/-- `group_status`: Non-modified iff the final value set is among the raw
    value sets this value originally belonged to. -/
def group_status (orig_group_sets : List (Finset PyStr)) (final_values_set : Finset PyStr) : PyStr :=
  if final_values_set ∈ orig_group_sets then nonModifiedStr else modifiedStr

/-- The `orig_group_id` column: prefer an original group whose raw value set
    equals the final set, else the first group the value appeared in, else
    the empty string. -/
def orig_group_id_of (doc : List OptionRec) (final_values_set : Finset PyStr) (v : PyStr) :
    PyStr :=
  let ogs := value_to_original_group_sets doc v
  if ogs = [] then []
  else
    match ogs.find? (fun s =>
        decide (s = final_values_set) && (original_group_set_to_id doc s).isSome) with
    | some s => (original_group_set_to_id doc s).getD []
    | none =>
      match ogs.head? with
      | some s0 => (original_group_set_to_id doc s0).getD []
      | none => []

/-- One report row (the ten columns of the export). -/
structure Row where
  sr : Nat
  value : PyStr
  orig_name : PyStr
  final_group_name : PyStr
  orig_group_id : PyStr
  final_gid : PyStr
  group_status : PyStr
  dependency_status : PyStr
  orig_deps_joined : PyStr
  final_deps_joined : PyStr
deriving DecidableEq

/-- Build the row for value `v` of cleaned group `cg` (assigned id `gid`). -/
def mkRow (doc : List OptionRec) (sr : Nat) (cg : CleanGroup) (gid : PyStr) (v : PyStr) :
    Row :=
  let ogs := value_to_original_group_sets doc v
  let orig_deps_set := value_to_original_deps doc v
  let final_deps_set := cg.dependents.toFinset
  { sr := sr
    value := v
    orig_name := value_to_original_name doc v
    final_group_name := joinComma cg.names
    orig_group_id := orig_group_id_of doc cg.values_set v
    final_gid := gid
    group_status := group_status ogs cg.values_set
    dependency_status := if orig_deps_set = final_deps_set then nonModifiedStr else modifiedStr
    orig_deps_joined := joinSemicolon (orig_deps_set.sort (· ≤ ·))
    final_deps_joined := joinSemicolon (final_deps_set.sort (· ≤ ·)) }

/-- The (group, id, value) triples enumerated by the row loop, in order. -/
def export_triples (doc : List OptionRec) : List (CleanGroup × PyStr × PyStr) :=
  ((cleaned_groups doc).zip (final_group_assignments doc)).flatMap
    (fun p => p.1.values.map (fun v => (p.1, p.2, v)))

/-- `export_rows`: one row per value of every cleaned group, serial numbers
    counting up from 1. -/
def export_rows (doc : List OptionRec) : List Row :=
  (export_triples doc).enum.map (fun q => mkRow doc (q.1 + 1) q.2.1 q.2.2.1 q.2.2.2)

/- ------------------------------------------------------------------ -/
/- Tokenizer lemmas.                                                  -/
/- ------------------------------------------------------------------ -/

theorem splitOnComma_ne_nil (s : PyStr) : splitOnComma s ≠ [] := by
  cases s with
  | nil => simp [splitOnComma]
  | cons c cs =>
    simp only [splitOnComma]
    split
    · simp
    · cases h : splitOnComma cs <;> simp

theorem mem_splitOnComma_no_comma {s t : PyStr} (ht : t ∈ splitOnComma s) : ',' ∉ t := by
  induction s generalizing t with
  | nil => simp [splitOnComma] at ht; simp [ht]
  | cons c cs ih =>
    simp only [splitOnComma] at ht
    by_cases hc : c = ','
    · simp [hc] at ht
      rcases ht with h | h
      · simp [h]
      · exact ih h
    · simp [hc] at ht
      rcases hsp : splitOnComma cs with _ | ⟨t0, ts⟩
      · exact absurd hsp (splitOnComma_ne_nil cs)
      · rw [hsp] at ht
        simp at ht
        rcases ht with h | h
        · subst h
          intro hmem
          rcases List.mem_cons.mp hmem with h1 | h1
          · exact hc h1.symm
          · exact ih (by simp [hsp]) h1
        · exact ih (by simp [hsp, h])

theorem mem_strip {c : Char} {s : PyStr} (h : c ∈ strip s) : c ∈ s := by
  unfold strip at h
  rw [List.mem_reverse] at h
  have h1 := (List.dropWhile_sublist isSpaceChar).mem h
  rw [List.mem_reverse] at h1
  exact (List.dropWhile_sublist isSpaceChar).mem h1

theorem dropWhile_idem (p : Char → Bool) (l : PyStr) :
    (l.dropWhile p).dropWhile p = l.dropWhile p := by
  induction l with
  | nil => simp
  | cons a t ih =>
    by_cases h : p a <;> simp [List.dropWhile_cons, h, ih]

theorem dropWhile_head_false {p : Char → Bool} {l : PyStr} (h : l.dropWhile p = l) :
    ∀ a t, l = a :: t → p a = false := by
  intro a t hl
  subst hl
  by_contra hpa
  simp only [Bool.not_eq_false] at hpa
  rw [List.dropWhile_cons, if_pos hpa] at h
  have := (List.dropWhile_sublist p (l := t)).length_le
  rw [h] at this
  simp at this

/-- Dropping trailing whitespace from a string with no leading whitespace
    leaves a string with no leading whitespace. -/
theorem dropWhile_reverse_dropWhile (p : Char → Bool) (l : PyStr)
    (h : l.dropWhile p = l) :
    ((l.reverse.dropWhile p).reverse).dropWhile p = (l.reverse.dropWhile p).reverse := by
  cases l with
  | nil => simp
  | cons a t =>
    have hpa : p a = false := dropWhile_head_false h a t rfl
    rw [List.reverse_cons, List.dropWhile_append]
    by_cases he : (t.reverse.dropWhile p).isEmpty
    · simp only [he, if_pos]
      simp [List.dropWhile_cons, hpa]
    · simp only [he, if_neg, Bool.false_eq_true, not_false_iff]
      rw [List.reverse_append]
      simp [List.dropWhile_cons, hpa]

theorem strip_no_leading (s : PyStr) : (strip s).dropWhile isSpaceChar = strip s := by
  unfold strip
  exact dropWhile_reverse_dropWhile isSpaceChar _ (dropWhile_idem _ _)

theorem strip_idem (s : PyStr) : strip (strip s) = strip s := by
  conv_lhs => rw [strip, strip_no_leading]
  rw [strip]
  rw [List.reverse_reverse, dropWhile_idem]

/-- Tokens produced by the tokenizer: non-empty, stripped, comma-free. -/
theorem mem_split_field {s t : PyStr} (ht : t ∈ _split_field s) :
    t ≠ [] ∧ strip t = t ∧ ',' ∉ t := by
  unfold _split_field at ht
  split at ht
  · simp at ht
  · rw [List.mem_filter] at ht
    obtain ⟨hmem, hne⟩ := ht
    rw [List.mem_map] at hmem
    obtain ⟨t0, ht0, rfl⟩ := hmem
    refine ⟨by simpa using hne, strip_idem t0, ?_⟩
    intro hc
    exact mem_splitOnComma_no_comma ht0 (mem_strip hc)

theorem splitOnComma_append_comma : ∀ (t r : PyStr), ',' ∉ t →
    splitOnComma (t ++ ',' :: r) = t :: splitOnComma r
  | [], r, _ => by simp [splitOnComma]
  | c :: cs, r, h => by
    have hc : c ≠ ',' := fun hc => h (by simp [hc])
    have hcs : ',' ∉ cs := fun hm => h (List.mem_cons_of_mem _ hm)
    have ih := splitOnComma_append_comma cs r hcs
    show splitOnComma (c :: (cs ++ ',' :: r)) = _
    simp only [splitOnComma, if_neg hc, ih]

theorem splitOnComma_no_comma {t : PyStr} (h : ',' ∉ t) : splitOnComma t = [t] := by
  induction t with
  | nil => simp [splitOnComma]
  | cons c cs ih =>
    have hc : c ≠ ',' := fun hc => h (by simp [hc])
    have hcs : ',' ∉ cs := fun hm => h (List.mem_cons_of_mem _ hm)
    simp only [splitOnComma, if_neg hc, ih hcs]

theorem joinComma_nil : joinComma [] = [] := rfl

theorem joinComma_singleton (a : PyStr) : joinComma [a] = a := by
  simp [joinComma, List.intercalate]

theorem joinComma_cons_cons (a b : PyStr) (l : List PyStr) :
    joinComma (a :: b :: l) = a ++ ',' :: joinComma (b :: l) := by
  unfold joinComma List.intercalate
  rw [List.intersperse_cons_cons]
  simp

theorem splitOnComma_joinComma {l : List PyStr} (hl : l ≠ [])
    (h : ∀ t ∈ l, ',' ∉ t) : splitOnComma (joinComma l) = l := by
  induction l with
  | nil => exact absurd rfl hl
  | cons a rest ih =>
    cases rest with
    | nil => rw [joinComma_singleton]; exact splitOnComma_no_comma (h a (by simp))
    | cons b rest2 =>
      rw [joinComma_cons_cons,
        splitOnComma_append_comma _ _ (h a (by simp)),
        ih (by simp) (fun t ht => h t (List.mem_cons_of_mem _ ht))]

theorem joinComma_eq_nil {l : List PyStr} (h : joinComma l = []) : l = [] ∨ l = [[]] := by
  cases l with
  | nil => exact Or.inl rfl
  | cons a rest =>
    cases rest with
    | nil =>
      right
      rw [joinComma_singleton] at h
      rw [h]
    | cons b rest2 => rw [joinComma_cons_cons] at h; simp at h

/-- Round trip: re-tokenizing a comma-joined list of clean tokens recovers
    exactly its non-empty tokens. -/
theorem split_field_joinComma {l : List PyStr}
    (h : ∀ t ∈ l, strip t = t ∧ ',' ∉ t) :
    _split_field (joinComma l) = l.filter (fun t => t ≠ []) := by
  by_cases hnil : joinComma l = []
  · rcases joinComma_eq_nil hnil with rfl | rfl
    · simp [_split_field, joinComma_nil]
    · rw [hnil]; simp [_split_field]
  · have hl : l ≠ [] := by rintro rfl; exact hnil rfl
    unfold _split_field
    rw [if_neg hnil, splitOnComma_joinComma hl (fun t ht => (h t ht).2)]
    congr 1
    exact (List.map_congr_left (fun t ht => (h t ht).1)).trans (List.map_id l)

/- ------------------------------------------------------------------ -/
/- Flattener lemmas.                                                  -/
/- ------------------------------------------------------------------ -/

theorem strip_nil : strip [] = [] := rfl

theorem pairValue_lt {values : List PyStr} {i : Nat} (h : i < values.length) :
    pairValue values i = values.get ⟨i, h⟩ := by
  unfold pairValue
  rw [List.get?_eq_get h]

theorem pairValue_ge {values : List PyStr} {i : Nat} (h : values.length ≤ i)
    (hne : values ≠ []) : pairValue values i = values.getLast hne := by
  unfold pairValue
  rw [List.get?_eq_none.mpr h, List.getLast?_eq_getLast _ hne]

theorem pairValue_nil (i : Nat) : pairValue [] i = [] := rfl

theorem pairValue_mem {values : List PyStr} (hne : values ≠ []) (i : Nat) :
    pairValue values i ∈ values := by
  unfold pairValue
  cases hg : values.get? i with
  | some v => exact List.get?_mem hg
  | none =>
    cases hl : values.getLast? with
    | some v => exact List.mem_of_mem_getLast? hl
    | none => exact absurd (List.getLast?_eq_none_iff.mp hl) hne

theorem flatOfOption_length (o : OptionRec) :
    (flatOfOption o).length = (_split_field o.name).length := by
  simp [flatOfOption, List.enum_length]

theorem flatOfOption_get (o : OptionRec) (i : Nat) (h : i < (_split_field o.name).length) :
    (flatOfOption o).get ⟨i, by rw [flatOfOption_length]; exact h⟩ =
      { name := (_split_field o.name).get ⟨i, h⟩
        value := pairValue (_split_field o.value) i
        deps := depIdSet o } := by
  simp [flatOfOption, List.getElem_enum]

theorem mem_flatOfOption {o : OptionRec} {it : FlatItem} (h : it ∈ flatOfOption o) :
    it.deps = depIdSet o ∧ it.name ∈ _split_field o.name ∧
      ∃ i, i < (_split_field o.name).length ∧ it.value = pairValue (_split_field o.value) i := by
  unfold flatOfOption at h
  rw [List.mem_map] at h
  obtain ⟨⟨i, n⟩, hmem, rfl⟩ := h
  obtain ⟨hi, hn⟩ := List.mem_enum hmem
  exact ⟨rfl, by rw [hn]; exact List.getElem_mem hi, i, hi, rfl⟩

theorem flatOfOption_mem_intro {o : OptionRec} {i : Nat}
    (h : i < (_split_field o.name).length) :
    ({ name := (_split_field o.name).get ⟨i, h⟩
       value := pairValue (_split_field o.value) i
       deps := depIdSet o } : FlatItem) ∈ flatOfOption o := by
  rw [← flatOfOption_get o i h]
  exact List.get_mem _ _ _

/-- Every flat value is a value token of its record, or the empty string
    when the record has no value tokens. -/
theorem flat_value_cases {o : OptionRec} {it : FlatItem} (h : it ∈ flatOfOption o) :
    it.value ∈ _split_field o.value ∨ (it.value = [] ∧ _split_field o.value = []) := by
  obtain ⟨-, -, i, -, hv⟩ := mem_flatOfOption h
  by_cases hne : _split_field o.value = []
  · right
    rw [hv, hne, pairValue_nil]
    exact ⟨rfl, rfl⟩
  · left
    rw [hv]
    exact pairValue_mem hne i

/-- Flat values are stripped and comma-free. -/
theorem flat_value_clean {o : OptionRec} {it : FlatItem} (h : it ∈ flatOfOption o) :
    strip it.value = it.value ∧ ',' ∉ it.value := by
  rcases flat_value_cases h with hm | ⟨hm, -⟩
  · obtain ⟨-, h1, h2⟩ := mem_split_field hm
    exact ⟨h1, h2⟩
  · rw [hm]
    exact ⟨strip_nil, by simp⟩

/-- Flat names are non-empty tokens of their record's name attribute. -/
theorem flat_name_token {o : OptionRec} {it : FlatItem} (h : it ∈ flatOfOption o) :
    it.name ≠ [] ∧ strip it.name = it.name ∧ ',' ∉ it.name := by
  obtain ⟨-, hn, -⟩ := mem_flatOfOption h
  exact mem_split_field hn

/- ------------------------------------------------------------------ -/
/- Dependent Unifier lemmas.                                          -/
/- ------------------------------------------------------------------ -/

theorem foldr_union_init (l : List (Finset PyStr)) (s : Finset PyStr) :
    l.foldr (· ∪ ·) s = l.foldr (· ∪ ·) ∅ ∪ s := by
  induction l with
  | nil => simp
  | cons a t ih => simp [ih, Finset.union_assoc]

theorem value_to_deps_append (l1 l2 : List FlatItem) (v : PyStr) :
    value_to_deps (l1 ++ l2) v = value_to_deps l1 v ∪ value_to_deps l2 v := by
  unfold value_to_deps
  rw [List.filter_append, List.map_append, List.foldr_append, foldr_union_init]

theorem value_to_deps_cons (it : FlatItem) (l : List FlatItem) (v : PyStr) :
    value_to_deps (it :: l) v =
      if it.value = v then it.deps ∪ value_to_deps l v else value_to_deps l v := by
  unfold value_to_deps
  rw [List.filter_cons]
  by_cases h : it.value = v <;> simp [h]

theorem mem_value_to_deps {flat : List FlatItem} {v : PyStr} {x : PyStr} :
    x ∈ value_to_deps flat v ↔ ∃ it ∈ flat, it.value = v ∧ x ∈ it.deps := by
  induction flat with
  | nil => simp [value_to_deps]
  | cons it l ih =>
    rw [value_to_deps_cons]
    by_cases h : it.value = v
    · simp only [if_pos h, Finset.mem_union, ih]
      constructor
      · rintro (hx | ⟨it', h1, h2, h3⟩)
        · exact ⟨it, by simp, h, hx⟩
        · exact ⟨it', by simp [h1], h2, h3⟩
      · rintro ⟨it', h1, h2, h3⟩
        rcases List.mem_cons.mp h1 with rfl | h1
        · exact Or.inl h3
        · exact Or.inr ⟨it', h1, h2, h3⟩
    · rw [if_neg h, ih]
      constructor
      · rintro ⟨it', h1, h2, h3⟩
        exact ⟨it', by simp [h1], h2, h3⟩
      · rintro ⟨it', h1, h2, h3⟩
        rcases List.mem_cons.mp h1 with rfl | h1
        · exact absurd h2 h
        · exact ⟨it', h1, h2, h3⟩

/-- On a run of items all carrying the same dependent set, unification
    yields that set when some item carries the value, `∅` otherwise. -/
theorem value_to_deps_const {l : List FlatItem} {D : Finset PyStr}
    (h : ∀ it ∈ l, it.deps = D) (v : PyStr) :
    value_to_deps l v = if l.any (fun it => it.value = v) then D else ∅ := by
  induction l with
  | nil => simp [value_to_deps]
  | cons it t ih =>
    rw [value_to_deps_cons, ih (fun it' h' => h it' (List.mem_cons_of_mem _ h'))]
    have hD : it.deps = D := h it (by simp)
    by_cases hv : it.value = v
    · rw [if_pos hv]
      by_cases ha : t.any (fun it => it.value = v) <;>
        simp [ha, hv, hD]
    · rw [if_neg hv]
      by_cases ha : t.any (fun it => it.value = v) <;>
        simp [ha, hv]

/-- Unification over the whole flat list, regrouped per original record:
    the union of the dependent-id sets of every record one of whose
    flattened pairings carries `v`. -/
theorem value_to_deps_flatten (doc : List OptionRec) (v : PyStr) :
    value_to_deps (flatten doc) v =
      ((doc.filter (fun o => (flatOfOption o).any (fun it => it.value = v))).map
          depIdSet).foldr (· ∪ ·) ∅ := by
  induction doc with
  | nil => simp [flatten, value_to_deps]
  | cons o rest ih =>
    have hstep : flatten (o :: rest) = flatOfOption o ++ flatten rest := by
      simp [flatten]
    rw [hstep, value_to_deps_append, ih,
      value_to_deps_const (fun it h => (mem_flatOfOption h).1) v, List.filter_cons]
    by_cases ha : (flatOfOption o).any (fun it => it.value = v) <;> simp [ha]

/- ------------------------------------------------------------------ -/
/- Group Merger lemmas.                                               -/
/- ------------------------------------------------------------------ -/

theorem mem_addNew {l : List PyStr} {x y : PyStr} : y ∈ addNew l x ↔ y ∈ l ∨ y = x := by
  unfold addNew
  split
  · constructor
    · exact Or.inl
    · rintro (h | rfl) <;> assumption
  · simp

theorem mem_addNew_self (l : List PyStr) (x : PyStr) : x ∈ addNew l x :=
  mem_addNew.mpr (Or.inr rfl)

theorem mem_addNew_of_mem {l : List PyStr} {y : PyStr} (h : y ∈ l) (x : PyStr) :
    y ∈ addNew l x :=
  mem_addNew.mpr (Or.inl h)

theorem addNew_nodup {l : List PyStr} (h : l.Nodup) (x : PyStr) : (addNew l x).Nodup := by
  unfold addNew
  split
  · exact h
  · simp_all [List.nodup_append]

theorem insertItem_map_deps (key : Finset PyStr) (n v : PyStr) (gs : List MergedGroup) :
    (insertItem key n v gs).map (fun g => g.deps) =
      if key ∈ gs.map (fun g => g.deps) then gs.map (fun g => g.deps)
      else gs.map (fun g => g.deps) ++ [key] := by
  induction gs with
  | nil => simp [insertItem]
  | cons g t ih =>
    simp only [insertItem]
    by_cases h : g.deps = key
    · rw [if_pos h]
      simp [h]
    · rw [if_neg h, List.map_cons, List.map_cons, ih]
      have hne : key ≠ g.deps := fun he => h he.symm
      by_cases hk : key ∈ t.map (fun g => g.deps) <;>
        simp [hk, hne]

theorem mem_insertItem {key : Finset PyStr} {n v : PyStr} {gs : List MergedGroup}
    {g' : MergedGroup} (h : g' ∈ insertItem key n v gs) :
    g' ∈ gs ∨
    (∃ g, g ∈ gs ∧ g.deps = key ∧ g' = ⟨addNew g.names n, addNew g.values v, g.deps⟩) ∨
    g' = ⟨[n], [v], key⟩ := by
  induction gs with
  | nil => simp [insertItem] at h; tauto
  | cons g t ih =>
    simp only [insertItem] at h
    by_cases hd : g.deps = key
    · rw [if_pos hd] at h
      rcases List.mem_cons.mp h with rfl | h1
      · exact Or.inr (Or.inl ⟨g, by simp, hd, rfl⟩)
      · exact Or.inl (List.mem_cons_of_mem _ h1)
    · rw [if_neg hd] at h
      rcases List.mem_cons.mp h with rfl | h1
      · exact Or.inl (by simp)
      · rcases ih h1 with h2 | ⟨g0, h2, h3, h4⟩ | h2
        · exact Or.inl (List.mem_cons_of_mem _ h2)
        · exact Or.inr (Or.inl ⟨g0, List.mem_cons_of_mem _ h2, h3, h4⟩)
        · exact Or.inr (Or.inr h2)

theorem insertItem_covers (key : Finset PyStr) (n v : PyStr) (gs : List MergedGroup) :
    ∃ g', g' ∈ insertItem key n v gs ∧ g'.deps = key ∧ n ∈ g'.names ∧ v ∈ g'.values := by
  induction gs with
  | nil =>
    exact ⟨⟨[n], [v], key⟩, by simp [insertItem], rfl, by simp, by simp⟩
  | cons g t ih =>
    simp only [insertItem]
    by_cases h : g.deps = key
    · rw [if_pos h]
      exact ⟨⟨addNew g.names n, addNew g.values v, g.deps⟩, by simp, h,
        mem_addNew_self _ _, mem_addNew_self _ _⟩
    · rw [if_neg h]
      obtain ⟨g', hg', hk, hn, hv⟩ := ih
      exact ⟨g', List.mem_cons_of_mem _ hg', hk, hn, hv⟩

theorem insertItem_mono {gs : List MergedGroup} {g : MergedGroup} (hg : g ∈ gs)
    (key : Finset PyStr) (n v : PyStr) :
    ∃ g', g' ∈ insertItem key n v gs ∧ g'.deps = g.deps ∧
      (∀ x ∈ g.names, x ∈ g'.names) ∧ (∀ x ∈ g.values, x ∈ g'.values) := by
  induction gs with
  | nil => simp at hg
  | cons g0 t ih =>
    simp only [insertItem]
    by_cases h : g0.deps = key
    · rw [if_pos h]
      rcases List.mem_cons.mp hg with rfl | h1
      · exact ⟨⟨addNew g.names n, addNew g.values v, g.deps⟩, by simp, rfl,
          fun x hx => mem_addNew_of_mem hx n, fun x hx => mem_addNew_of_mem hx v⟩
      · exact ⟨g, List.mem_cons_of_mem _ h1, rfl, fun x hx => hx, fun x hx => hx⟩
    · rw [if_neg h]
      rcases List.mem_cons.mp hg with rfl | h1
      · exact ⟨g, by simp, rfl, fun x hx => hx, fun x hx => hx⟩
      · obtain ⟨g', hg', hk, hn, hv⟩ := ih h1
        exact ⟨g', List.mem_cons_of_mem _ hg', hk, hn, hv⟩

/-- The loop invariant of the merging fold: after processing the items of
    `seen`, keys are pairwise distinct; every group is internally
    duplicate-free, keyed consistently with the unifier, and populated only
    from processed items; and every processed item is represented. -/
def MergeInv (u : PyStr → Finset PyStr) (seen : List FlatItem) (gs : List MergedGroup) :
    Prop :=
  (gs.map (fun g => g.deps)).Nodup ∧
  (∀ g ∈ gs, (∀ v ∈ g.values, u v = g.deps) ∧ g.values.Nodup ∧ g.names.Nodup ∧
    (∀ v ∈ g.values, ∃ it ∈ seen, it.value = v) ∧
    (∀ n ∈ g.names, ∃ it ∈ seen, it.name = n ∧ u it.value = g.deps)) ∧
  (∀ it ∈ seen, ∃ g ∈ gs, g.deps = u it.value ∧ it.value ∈ g.values ∧ it.name ∈ g.names)

theorem mergeInv_insert {u : PyStr → Finset PyStr} {seen : List FlatItem}
    {gs : List MergedGroup} (inv : MergeInv u seen gs) (it : FlatItem) :
    MergeInv u (seen ++ [it]) (insertItem (u it.value) it.name it.value gs) := by
  obtain ⟨hnd, hgrp, hcov⟩ := inv
  refine ⟨?_, ?_, ?_⟩
  · rw [insertItem_map_deps]
    split
    · exact hnd
    · next hk =>
      rw [List.nodup_append]
      refine ⟨hnd, List.nodup_singleton _, fun a ha hb => ?_⟩
      simp at hb
      subst hb
      exact hk ha
  · intro g' hg'
    rcases mem_insertItem hg' with hmem | ⟨g, hgmem, hdep, rfl⟩ | rfl
    · obtain ⟨h1, h2, h3, h4, h5⟩ := hgrp g' hmem
      refine ⟨h1, h2, h3, fun v hv => ?_, fun n hn => ?_⟩
      · obtain ⟨it', hit', he⟩ := h4 v hv
        exact ⟨it', List.mem_append_left _ hit', he⟩
      · obtain ⟨it', hit', he⟩ := h5 n hn
        exact ⟨it', List.mem_append_left _ hit', he⟩
    · obtain ⟨h1, h2, h3, h4, h5⟩ := hgrp g hgmem
      refine ⟨?_, addNew_nodup h2 _, addNew_nodup h3 _, ?_, ?_⟩
      · intro v hv
        rcases mem_addNew.mp hv with hv | rfl
        · exact h1 v hv
        · exact hdep.symm
      · intro v hv
        rcases mem_addNew.mp hv with hv | rfl
        · obtain ⟨it', hit', he⟩ := h4 v hv
          exact ⟨it', List.mem_append_left _ hit', he⟩
        · exact ⟨it, List.mem_append_right _ (by simp), rfl⟩
      · intro n hn
        rcases mem_addNew.mp hn with hn | rfl
        · obtain ⟨it', hit', he⟩ := h5 n hn
          exact ⟨it', List.mem_append_left _ hit', he⟩
        · exact ⟨it, List.mem_append_right _ (by simp), rfl, hdep.symm⟩
    · refine ⟨?_, by simp, by simp, ?_, ?_⟩
      · intro v hv
        simp at hv
        rw [hv]
      · intro v hv
        simp at hv
        exact ⟨it, List.mem_append_right _ (by simp), hv.symm⟩
      · intro n hn
        simp at hn
        exact ⟨it, List.mem_append_right _ (by simp), hn.symm, rfl⟩
  · intro it' hit'
    rcases List.mem_append.mp hit' with h | h
    · obtain ⟨g, hg, h1, h2, h3⟩ := hcov it' h
      obtain ⟨g', hg', hk, hn, hv⟩ := insertItem_mono hg (u it.value) it.name it.value
      exact ⟨g', hg', by rw [hk, h1], hv _ h2, hn _ h3⟩
    · simp at h
      rw [h]
      obtain ⟨g', hg', hk, hn, hv⟩ := insertItem_covers (u it.value) it.name it.value gs
      exact ⟨g', hg', hk, hv, hn⟩

theorem mergeInv_foldl (u : PyStr → Finset PyStr) :
    ∀ (flat seen : List FlatItem) (gs : List MergedGroup), MergeInv u seen gs →
      MergeInv u (seen ++ flat)
        (flat.foldl (fun gs it => insertItem (u it.value) it.name it.value gs) gs)
  | [], seen, gs, inv => by simpa using inv
  | it :: rest, seen, gs, inv => by
    have h2 := mergeInv_foldl u rest (seen ++ [it]) _ (mergeInv_insert inv it)
    simpa using h2

theorem merged_inv (doc : List OptionRec) :
    MergeInv (value_to_deps (flatten doc)) (flatten doc) (merged doc) := by
  have h := mergeInv_foldl (value_to_deps (flatten doc)) (flatten doc) [] []
    ⟨by simp, by simp, by simp⟩
  simpa [merged, mergeGroups] using h

theorem merged_keys_nodup (doc : List OptionRec) :
    ((merged doc).map (fun g => g.deps)).Nodup :=
  (merged_inv doc).1

theorem merged_eq_of_deps_eq {doc : List OptionRec} {g1 g2 : MergedGroup}
    (h1 : g1 ∈ merged doc) (h2 : g2 ∈ merged doc) (h : g1.deps = g2.deps) : g1 = g2 :=
  List.inj_on_of_nodup_map (merged_keys_nodup doc) h1 h2 h

/-- Every value of a merged group has that group's key as its unified set. -/
theorem merged_val_key {doc : List OptionRec} {g : MergedGroup} (hg : g ∈ merged doc)
    {v : PyStr} (hv : v ∈ g.values) : value_to_deps (flatten doc) v = g.deps :=
  ((merged_inv doc).2.1 g hg).1 v hv

theorem merged_values_nodup {doc : List OptionRec} {g : MergedGroup}
    (hg : g ∈ merged doc) : g.values.Nodup :=
  ((merged_inv doc).2.1 g hg).2.1

theorem merged_value_origin {doc : List OptionRec} {g : MergedGroup} (hg : g ∈ merged doc)
    {v : PyStr} (hv : v ∈ g.values) : ∃ it ∈ flatten doc, it.value = v :=
  ((merged_inv doc).2.1 g hg).2.2.2.1 v hv

theorem merged_name_origin {doc : List OptionRec} {g : MergedGroup} (hg : g ∈ merged doc)
    {n : PyStr} (hn : n ∈ g.names) :
    ∃ it ∈ flatten doc, it.name = n ∧ value_to_deps (flatten doc) it.value = g.deps :=
  ((merged_inv doc).2.1 g hg).2.2.2.2 n hn

/-- Every flat item is represented in the group keyed by its value's
    unified dependent set. -/
theorem merged_covers {doc : List OptionRec} {it : FlatItem} (hit : it ∈ flatten doc) :
    ∃ g ∈ merged doc, g.deps = value_to_deps (flatten doc) it.value ∧
      it.value ∈ g.values ∧ it.name ∈ g.names :=
  (merged_inv doc).2.2 it hit

/- ------------------------------------------------------------------ -/
/- Round trip: re-parsing the rebuilt XML.                            -/
/- ------------------------------------------------------------------ -/

theorem nil_not_mem_split_field (s : PyStr) : [] ∉ _split_field s :=
  fun h => (mem_split_field h).1 rfl

theorem merged_value_clean {doc : List OptionRec} {g : MergedGroup} (hg : g ∈ merged doc)
    {v : PyStr} (hv : v ∈ g.values) : strip v = v ∧ ',' ∉ v := by
  obtain ⟨it, hit, rfl⟩ := merged_value_origin hg hv
  obtain ⟨o, ho, hito⟩ := List.mem_flatMap.mp hit
  exact flat_value_clean hito

theorem merged_name_token {doc : List OptionRec} {g : MergedGroup} (hg : g ∈ merged doc)
    {n : PyStr} (hn : n ∈ g.names) : n ≠ [] ∧ strip n = n ∧ ',' ∉ n := by
  obtain ⟨it, hit, hname, -⟩ := merged_name_origin hg hn
  obtain ⟨o, ho, hito⟩ := List.mem_flatMap.mp hit
  rw [← hname]
  exact flat_name_token hito

/-- What the reconciliation pass sees after re-parsing the canonical
    document: group names verbatim, group values with the empty-string
    value dropped. -/
theorem cleaned_groups_eq (doc : List OptionRec) :
    cleaned_groups doc = (merged doc).map (fun g =>
      { names := g.names
        values := g.values.filter (fun t => t ≠ [])
        dependents := depStrs (rebuildOption doc g)
        values_set := (g.values.filter (fun t => t ≠ [])).toFinset }) := by
  unfold cleaned_groups cleaned_groups_of generate_clean_xml_from_root
  rw [List.map_map]
  apply List.map_congr_left
  intro g hg
  have hnames : _split_field (joinComma g.names) = g.names := by
    rw [split_field_joinComma (fun t ht => (merged_name_token hg ht).2)]
    exact List.filter_eq_self.mpr
      (fun t ht => by simpa using (merged_name_token hg ht).1)
  have hvals : _split_field (joinComma g.values) = g.values.filter (fun t => t ≠ []) :=
    split_field_joinComma (fun t ht => merged_value_clean hg ht)
  simp only [Function.comp_apply, rebuildOption]
  simp only [hnames, hvals]

/-- Distinct merged groups carry disjoint value lists. -/
theorem merged_pairwise_disjoint (doc : List OptionRec) :
    (merged doc).Pairwise (fun g1 g2 => ∀ v, v ∈ g1.values → v ∉ g2.values) := by
  have hp : (merged doc).Pairwise (fun g1 g2 => g1.deps ≠ g2.deps) := by
    have := merged_keys_nodup doc
    rw [List.Nodup, List.pairwise_map] at this
    exact this
  refine hp.imp_of_mem ?_
  intro g1 g2 h1 h2 hne v hv1 hv2
  exact hne ((merged_val_key h1 hv1).symm.trans (merged_val_key h2 hv2))

/-- The concatenation of all cleaned value lists has no duplicates. -/
theorem cleaned_values_nodup (doc : List OptionRec) :
    ((cleaned_groups doc).flatMap (fun cg => cg.values)).Nodup := by
  rw [cleaned_groups_eq, List.flatMap_map]
  rw [List.nodup_flatMap]
  constructor
  · intro g hg
    exact (merged_values_nodup hg).filter _
  · refine (merged_pairwise_disjoint doc).imp ?_
    intro g1 g2 h v hv1 hv2
    rw [List.mem_filter] at hv1 hv2
    exact h v hv1.1 hv2.1

/- ------------------------------------------------------------------ -/
/- Claims.                                                            -/
/- ------------------------------------------------------------------ -/

/-- The worked example of the specification: names A,B with duplicated
    value 1 and name C with value 2, all referencing dependent d1. -/
def exampleDoc : List OptionRec :=
  [⟨pyOfString "A,B", pyOfString "1,1", [⟨pyOfString "d1", pyOfString "X"⟩]⟩,
   ⟨pyOfString "C", pyOfString "2", [⟨pyOfString "d1", pyOfString "X"⟩]⟩]

/-- C9: the flattener pairs the i-th name token with the i-th value token;
    when names outnumber values, each name beyond the value list is paired
    with the last value token; when there are no value tokens, every name
    is paired with the empty string. -/
theorem claim_C9_positional_pairing (o : OptionRec) (i : Nat)
    (h : i < (_split_field o.name).length) :
    (flatOfOption o).get? i = some
      { name := (_split_field o.name).get ⟨i, h⟩
        value :=
          if h2 : i < (_split_field o.value).length then
            (_split_field o.value).get ⟨i, h2⟩
          else if h3 : _split_field o.value ≠ [] then
            (_split_field o.value).getLast h3
          else []
        deps := depIdSet o } := by
  have hlen : i < (flatOfOption o).length := by
    rw [flatOfOption_length]
    exact h
  rw [List.get?_eq_get hlen, flatOfOption_get o i h]
  congr 1
  by_cases h2 : i < (_split_field o.value).length
  · rw [dif_pos h2, pairValue_lt h2]
  · rw [dif_neg h2]
    by_cases h3 : _split_field o.value = []
    · rw [dif_neg (by simpa using h3), h3, pairValue_nil]
    · rw [dif_pos h3, pairValue_ge (by omega) h3]

theorem claim_C9_witness :
    1 < (_split_field (pyOfString "A,B")).length ∧
      (flatOfOption ⟨pyOfString "A,B", pyOfString "9", []⟩).get? 1 =
        some ⟨pyOfString "B", pyOfString "9", ∅⟩ := by
  refine ⟨by decide, ?_⟩
  rw [claim_C9_positional_pairing ⟨pyOfString "A,B", pyOfString "9", []⟩ 1 (by decide)]
  decide

/-- C1: two values occurring among the flattened pairings land in the same
    canonical group exactly when their unified dependent-identifier sets
    coincide; with distinct unified sets they can only sit in distinct
    groups. -/
theorem claim_C1_merge_correctness (doc : List OptionRec) (v1 v2 : PyStr)
    (h1 : ∃ it ∈ flatten doc, it.value = v1) (h2 : ∃ it ∈ flatten doc, it.value = v2) :
    (value_to_deps (flatten doc) v1 = value_to_deps (flatten doc) v2 →
      ∃ g ∈ merged doc, v1 ∈ g.values ∧ v2 ∈ g.values) ∧
    (value_to_deps (flatten doc) v1 ≠ value_to_deps (flatten doc) v2 →
      ∀ g1 ∈ merged doc, ∀ g2 ∈ merged doc,
        v1 ∈ g1.values → v2 ∈ g2.values → g1 ≠ g2) := by
  obtain ⟨it1, hit1, rfl⟩ := h1
  obtain ⟨it2, hit2, rfl⟩ := h2
  constructor
  · intro he
    obtain ⟨ga, hga, hka, hva, -⟩ := merged_covers hit1
    obtain ⟨gb, hgb, hkb, hvb, -⟩ := merged_covers hit2
    have hab : ga = gb := merged_eq_of_deps_eq hga hgb (by rw [hka, hkb, he])
    exact ⟨ga, hga, hva, hab ▸ hvb⟩
  · intro hne g1 hg1 g2 hg2 hv1 hv2 heq
    apply hne
    rw [merged_val_key hg1 hv1, merged_val_key hg2 hv2, heq]

theorem claim_C1_witness :
    ∃ g ∈ merged exampleDoc, pyOfString "1" ∈ g.values ∧ pyOfString "2" ∈ g.values :=
  (claim_C1_merge_correctness exampleDoc (pyOfString "1") (pyOfString "2")
    (by decide) (by decide)).1 (by decide)

/-- The dependent-identifier set of the rebuilt option is exactly its
    group's merge key. -/
theorem depIdSet_rebuildOption (doc : List OptionRec) (g : MergedGroup) :
    depIdSet (rebuildOption doc g) = g.deps := by
  unfold depIdSet depIds rebuildOption
  rw [List.map_map]
  have hmap : ((fun d => d.id) ∘ fun i => (⟨i, dep_id_to_name doc i⟩ : Dependent)) =
      fun i => i := rfl
  rw [hmap, List.map_id']
  exact Finset.sort_toFinset _ _

/-- The union, over the original records whose value tokens contain `v`, of
    their dependent-identifier sets (the literal reading of C2). -/
def record_deps_union (doc : List OptionRec) (v : PyStr) : Finset PyStr :=
  ((doc.filter (fun o => v ∈ _split_field o.value)).map depIdSet).foldr (· ∪ ·) ∅

/-- A record whose value list outnumbers its name list: value token 5 of
    the first record is never paired with a name. -/
def c2Doc : List OptionRec :=
  [⟨pyOfString "A", pyOfString "1,5", [⟨pyOfString "d1", pyOfString "X"⟩]⟩,
   ⟨pyOfString "B", pyOfString "5", [⟨pyOfString "d2", pyOfString "Y"⟩]⟩]

/-- C2 as stated is false: value 5 occurs in both records of `c2Doc`, but
    its canonical group's dependent set is {d2}, not {d1, d2} — the first
    record's token 5 has no name to pair with and is never flattened. -/
theorem claim_C2_counterexample :
    ∃ g ∈ merged c2Doc, pyOfString "5" ∈ g.values ∧
      g.deps ≠ record_deps_union c2Doc (pyOfString "5") := by decide

/-- C2, amended: the canonical group containing `v` carries the union of
    the dependent-identifier sets of every record one of whose flattened
    name/value pairings carries `v` (equivalently, the union over all
    FlatItems with value `v`), and that set is what the rebuilt option
    emits. -/
theorem claim_C2_amended (doc : List OptionRec) (v : PyStr)
    (hv : ∃ it ∈ flatten doc, it.value = v) :
    ∃ g ∈ merged doc, v ∈ g.values ∧
      g.deps = ((doc.filter (fun o => (flatOfOption o).any (fun it => it.value = v))).map
          depIdSet).foldr (· ∪ ·) ∅ ∧
      depIdSet (rebuildOption doc g) = g.deps := by
  obtain ⟨it, hit, rfl⟩ := hv
  obtain ⟨g, hg, hk, hval, -⟩ := merged_covers hit
  exact ⟨g, hg, hval, by rw [hk, value_to_deps_flatten], depIdSet_rebuildOption doc g⟩

theorem claim_C2_witness :
    ∃ g ∈ merged exampleDoc, pyOfString "1" ∈ g.values ∧
      g.deps = ((exampleDoc.filter
          (fun o => (flatOfOption o).any (fun it => it.value = pyOfString "1"))).map
          depIdSet).foldr (· ∪ ·) ∅ ∧
      depIdSet (rebuildOption exampleDoc g) = g.deps :=
  claim_C2_amended exampleDoc (pyOfString "1") (by decide)

/-- The union of the dependent-identifier sets of every record with name
    tokens but no value tokens. -/
def empty_valued_deps_union (doc : List OptionRec) : Finset PyStr :=
  ((doc.filter (fun o => _split_field o.name ≠ [] ∧ _split_field o.value = [])).map
      depIdSet).foldr (· ∪ ·) ∅

/-- An option's flattening carries the empty-string value exactly when the
    option has name tokens but no value tokens. -/
theorem flat_any_nil_value (o : OptionRec) :
    (flatOfOption o).any (fun it => it.value = []) =
      decide (_split_field o.name ≠ [] ∧ _split_field o.value = []) := by
  by_cases hcond : _split_field o.name ≠ [] ∧ _split_field o.value = []
  · rw [List.any_eq_true.mpr ?_]
    · simp [hcond]
    · have hlen : 0 < (_split_field o.name).length := List.length_pos.mpr hcond.1
      refine ⟨_, flatOfOption_mem_intro hlen, ?_⟩
      simp [hcond.2, pairValue_nil]
  · rw [show (flatOfOption o).any (fun it => it.value = []) = false from ?_]
    · simp [hcond]
    · rw [Bool.eq_false_iff]
      intro hany
      obtain ⟨it, hmem, hval⟩ := List.any_eq_true.mp hany
      simp only [decide_eq_true_eq] at hval
      rcases flat_value_cases hmem with hv | ⟨-, hv⟩
      · rw [hval] at hv
        exact nil_not_mem_split_field _ hv
      · have hnames : _split_field o.name ≠ [] := by
          intro hn
          rw [flatOfOption] at hmem
          simp [hn] at hmem
        exact hcond ⟨hnames, hv⟩

/-- The flat item produced for the name token `n` of a record with no
    value tokens. -/
theorem flat_item_of_name {r : OptionRec} {n : PyStr} (hnmem : n ∈ _split_field r.name)
    (hv : _split_field r.value = []) :
    ({ name := n, value := [], deps := depIdSet r } : FlatItem) ∈ flatOfOption r := by
  obtain ⟨i, hi, hget⟩ := List.mem_iff_getElem.mp hnmem
  have h0 := flatOfOption_mem_intro (o := r) hi
  rw [hv, pairValue_nil] at h0
  have hgn : (_split_field r.name).get ⟨i, hi⟩ = n := hget
  rw [hgn] at h0
  exact h0

/-- C10: every name of a record with name tokens but no value tokens is
    emitted into the unique canonical group keyed by the unified dependent
    set of the empty-string value — the union over all such records — and
    the empty-string value contributes no token after re-tokenization. -/
theorem claim_C10_empty_value_names (doc : List OptionRec) (r : OptionRec) (hr : r ∈ doc)
    (hn : _split_field r.name ≠ []) (hv : _split_field r.value = []) :
    value_to_deps (flatten doc) [] = empty_valued_deps_union doc ∧
    ∃ g ∈ merged doc, g.deps = value_to_deps (flatten doc) [] ∧
      (∀ g2 ∈ merged doc, g2.deps = value_to_deps (flatten doc) [] → g2 = g) ∧
      (∀ n ∈ _split_field r.name, n ∈ g.names) ∧
      [] ∉ _split_field (joinComma g.values) := by
  have hunion : value_to_deps (flatten doc) [] = empty_valued_deps_union doc := by
    rw [value_to_deps_flatten]
    unfold empty_valued_deps_union
    rw [List.filter_congr (fun o _ => flat_any_nil_value o)]
  have hhead : (_split_field r.name).head hn ∈ _split_field r.name := List.head_mem hn
  have hit0 : ({ name := (_split_field r.name).head hn
                 value := []
                 deps := depIdSet r } : FlatItem) ∈ flatten doc :=
    List.mem_flatMap.mpr ⟨r, hr, flat_item_of_name hhead hv⟩
  obtain ⟨g, hg, hk0, -, -⟩ := merged_covers hit0
  have hk : g.deps = value_to_deps (flatten doc) [] := hk0
  refine ⟨hunion, g, hg, hk,
    fun g2 hg2 hk2 => merged_eq_of_deps_eq hg2 hg (hk2.trans hk.symm),
    ?_, fun hmem => (mem_split_field hmem).1 rfl⟩
  intro n hnmem
  have hitn : ({ name := n, value := [], deps := depIdSet r } : FlatItem) ∈ flatten doc :=
    List.mem_flatMap.mpr ⟨r, hr, flat_item_of_name hnmem hv⟩
  obtain ⟨g', hg', hk0', -, hname'⟩ := merged_covers hitn
  have hk' : g'.deps = value_to_deps (flatten doc) [] := hk0'
  have hgg : g' = g := merged_eq_of_deps_eq hg' hg (hk'.trans hk.symm)
  rw [← hgg]
  exact hname'

/-- Two name-only records whose dependent sets must be unioned under the
    single empty-string value group. -/
def c10Doc : List OptionRec :=
  [⟨pyOfString "A,B", [], [⟨pyOfString "d1", pyOfString "X"⟩]⟩,
   ⟨pyOfString "C", [], [⟨pyOfString "d2", pyOfString "Y"⟩]⟩]

theorem claim_C10_witness :
    value_to_deps (flatten c10Doc) [] = empty_valued_deps_union c10Doc ∧
    ∃ g ∈ merged c10Doc, g.deps = value_to_deps (flatten c10Doc) [] ∧
      (∀ g2 ∈ merged c10Doc, g2.deps = value_to_deps (flatten c10Doc) [] → g2 = g) ∧
      (∀ n ∈ _split_field (pyOfString "A,B"), n ∈ g.names) ∧
      [] ∉ _split_field (joinComma g.values) :=
  claim_C10_empty_value_names c10Doc
    ⟨pyOfString "A,B", [], [⟨pyOfString "d1", pyOfString "X"⟩]⟩
    (by decide) (by decide) (by decide)

/-- A record with more value tokens than name tokens: token 2 is dropped. -/
def c3Doc : List OptionRec := [⟨pyOfString "A", pyOfString "1,2", []⟩]

/-- C3 as stated is false: the single option of `c3Doc` has one name token
    and two value tokens, so value 2 is never flattened and is absent from
    the canonical output. -/
theorem claim_C3_counterexample :
    ¬ (((generate_clean_xml_from_root c3Doc).flatMap
          (fun o => _split_field o.value)).toFinset =
        (c3Doc.flatMap (fun o => _split_field o.value)).toFinset) := by decide

/-- The value tokens of the canonical output are exactly the non-empty
    flattened values. -/
theorem mem_clean_values {doc : List OptionRec} {v : PyStr} :
    v ∈ (generate_clean_xml_from_root doc).flatMap (fun o => _split_field o.value) ↔
      (∃ it ∈ flatten doc, it.value = v) ∧ v ≠ [] := by
  have h1 : (generate_clean_xml_from_root doc).flatMap (fun o => _split_field o.value) =
      (cleaned_groups doc).flatMap (fun cg => cg.values) := by
    unfold cleaned_groups cleaned_groups_of
    rw [List.flatMap_map]
  rw [h1, cleaned_groups_eq, List.flatMap_map]
  constructor
  · intro hm
    rw [List.mem_flatMap] at hm
    obtain ⟨g, hg, hvg⟩ := hm
    replace hvg : v ∈ g.values.filter (fun t => t ≠ []) := hvg
    rw [List.mem_filter] at hvg
    have hne : v ≠ [] := by simpa using hvg.2
    exact ⟨merged_value_origin hg hvg.1, hne⟩
  · rintro ⟨⟨it, hit, rfl⟩, hne⟩
    obtain ⟨g, hg, -, hval, -⟩ := merged_covers hit
    rw [List.mem_flatMap]
    refine ⟨g, hg, ?_⟩
    show it.value ∈ g.values.filter (fun t => t ≠ [])
    rw [List.mem_filter]
    exact ⟨hval, by simpa using hne⟩

/-- C3, amended: in a document where no option has more value tokens than
    name tokens, the set of distinct value tokens is conserved by
    canonicalization (no value is lost and no value is invented). -/
theorem claim_C3_amended (doc : List OptionRec)
    (h : ∀ o ∈ doc, (_split_field o.value).length ≤ (_split_field o.name).length) :
    ((generate_clean_xml_from_root doc).flatMap (fun o => _split_field o.value)).toFinset =
      (doc.flatMap (fun o => _split_field o.value)).toFinset := by
  apply Finset.ext
  intro v
  rw [List.mem_toFinset, List.mem_toFinset, mem_clean_values]
  constructor
  · rintro ⟨⟨it, hit, rfl⟩, hne⟩
    obtain ⟨o, ho, hito⟩ := List.mem_flatMap.mp hit
    rcases flat_value_cases hito with hv | ⟨hv, -⟩
    · exact List.mem_flatMap.mpr ⟨o, ho, hv⟩
    · exact absurd hv hne
  · intro hm
    obtain ⟨o, ho, hto⟩ := List.mem_flatMap.mp hm
    obtain ⟨i, hi, hget⟩ := List.mem_iff_getElem.mp hto
    have hlt : i < (_split_field o.name).length := lt_of_lt_of_le hi (h o ho)
    refine ⟨⟨_, List.mem_flatMap.mpr ⟨o, ho, flatOfOption_mem_intro hlt⟩, ?_⟩, ?_⟩
    · show pairValue (_split_field o.value) i = v
      rw [pairValue_lt hi]
      exact hget
    · rintro rfl
      exact (mem_split_field hto).1 rfl

theorem claim_C3_witness :
    (∀ o ∈ exampleDoc, (_split_field o.value).length ≤ (_split_field o.name).length) ∧
    ((generate_clean_xml_from_root exampleDoc).flatMap
        (fun o => _split_field o.value)).toFinset =
      (exampleDoc.flatMap (fun o => _split_field o.value)).toFinset :=
  ⟨by decide, claim_C3_amended exampleDoc (by decide)⟩

/- ------------------------------------------------------------------ -/
/- Report-row lemmas.                                                 -/
/- ------------------------------------------------------------------ -/

theorem mkRow_sr (doc : List OptionRec) (sr : Nat) (cg : CleanGroup) (gid v : PyStr) :
    (mkRow doc sr cg gid v).sr = sr := rfl

theorem mkRow_value (doc : List OptionRec) (sr : Nat) (cg : CleanGroup) (gid v : PyStr) :
    (mkRow doc sr cg gid v).value = v := rfl

theorem hybridAssign_length (orig2id : Finset PyStr → Option PyStr) :
    ∀ (cgs : List CleanGroup) (next : Nat) (fmap : List (Finset PyStr × PyStr)),
      (hybridAssign orig2id cgs next fmap).length = cgs.length
  | [], _, _ => rfl
  | cg :: rest, next, fmap => by
    unfold hybridAssign
    cases orig2id cg.values_set with
    | some gid => simp [hybridAssign_length orig2id rest]
    | none =>
      cases fmap.find? (fun p => p.1 = cg.values_set) with
      | some p => simp [hybridAssign_length orig2id rest]
      | none => simp [hybridAssign_length orig2id rest]

theorem final_group_assignments_length (doc : List OptionRec) :
    (final_group_assignments doc).length = (cleaned_groups doc).length :=
  hybridAssign_length _ _ _ _

theorem flatMap_tripleize_values :
    ∀ (l : List (CleanGroup × PyStr)),
      (l.flatMap (fun p => p.1.values.map (fun v => (p.1, p.2, v)))).map
          (fun q => q.2.2) =
        l.flatMap (fun p => p.1.values)
  | [] => rfl
  | p :: t => by
    simp only [List.flatMap_cons, List.map_append, List.map_map]
    rw [flatMap_tripleize_values t]
    congr 1
    have h : ((fun q : CleanGroup × PyStr × PyStr => q.2.2) ∘ fun v => (p.1, p.2, v)) =
        fun v : PyStr => v := rfl
    rw [h, List.map_id']

/-- The value column of the triples, in order, is the concatenation of the
    cleaned groups' value lists. -/
theorem export_triples_values (doc : List OptionRec) :
    (export_triples doc).map (fun q => q.2.2) =
      (cleaned_groups doc).flatMap (fun cg => cg.values) := by
  unfold export_triples
  rw [flatMap_tripleize_values]
  rw [show (((cleaned_groups doc).zip (final_group_assignments doc)).flatMap
        fun p => p.1.values) =
      ((((cleaned_groups doc).zip (final_group_assignments doc)).map Prod.fst).flatMap
        fun cg => cg.values) from
    (List.flatMap_map Prod.fst (fun cg : CleanGroup => cg.values)
      ((cleaned_groups doc).zip (final_group_assignments doc))).symm]
  rw [List.map_fst_zip _ _ (by rw [final_group_assignments_length])]

theorem export_rows_length (doc : List OptionRec) :
    (export_rows doc).length = (export_triples doc).length := by
  unfold export_rows
  rw [List.length_map, List.enum_length]

theorem export_rows_values (doc : List OptionRec) :
    (export_rows doc).map (fun r => r.value) =
      (cleaned_groups doc).flatMap (fun cg => cg.values) := by
  unfold export_rows
  rw [List.map_map, ← export_triples_values]
  have h : ((fun r : Row => r.value) ∘
      fun q : Nat × CleanGroup × PyStr × PyStr => mkRow doc (q.1 + 1) q.2.1 q.2.2.1 q.2.2.2) =
      (fun q : CleanGroup × PyStr × PyStr => q.2.2) ∘ Prod.snd := rfl
  rw [h, ← List.map_map]
  rw [List.enum_map_snd]

theorem export_rows_sr (doc : List OptionRec) :
    (export_rows doc).map (fun r => r.sr) = List.range' 1 (export_rows doc).length := by
  unfold export_rows
  rw [List.map_map]
  have h : ((fun r : Row => r.sr) ∘
      fun q : Nat × CleanGroup × PyStr × PyStr => mkRow doc (q.1 + 1) q.2.1 q.2.2.1 q.2.2.2) =
      (fun i : Nat => 1 + i) ∘ Prod.fst := by
    funext q
    show q.1 + 1 = 1 + q.1
    omega
  rw [h, ← List.map_map, List.enum_map_fst, ← List.range'_eq_map_range]
  rw [List.length_map, List.enum_length]

/-- C8: one report row per value of every canonical group, in group order
    then value order; serial numbers are exactly 1..N; and N equals the
    number of distinct values across all canonical groups. -/
theorem claim_C8_report_completeness (doc : List OptionRec) :
    (export_rows doc).map (fun r => r.sr) = List.range' 1 (export_rows doc).length ∧
    (export_rows doc).length =
      (((cleaned_groups doc).flatMap (fun cg => cg.values)).toFinset).card ∧
    (export_rows doc).map (fun r => r.value) =
      (cleaned_groups doc).flatMap (fun cg => cg.values) := by
  refine ⟨export_rows_sr doc, ?_, export_rows_values doc⟩
  rw [List.toFinset_card_of_nodup (cleaned_values_nodup doc)]
  calc (export_rows doc).length
      = ((export_rows doc).map (fun r => r.value)).length := (List.length_map _ _).symm
    _ = ((cleaned_groups doc).flatMap (fun cg => cg.values)).length := by
        rw [export_rows_values doc]

/-- C7: a row's Group Status is "Non-modified" exactly when the canonical
    group's value set is among the raw value sets of the original records
    its value belonged to, and "Modified" exactly otherwise (in particular
    when no original group set is recorded for the value). -/
theorem claim_C7_group_status (doc : List OptionRec) (cg : CleanGroup)
    (hcg : cg ∈ cleaned_groups doc) (v : PyStr) (hv : v ∈ cg.values)
    (sr : Nat) (gid : PyStr) :
    ((mkRow doc sr cg gid v).group_status = nonModifiedStr ↔
      cg.values_set ∈ value_to_original_group_sets doc v) ∧
    ((mkRow doc sr cg gid v).group_status = modifiedStr ↔
      cg.values_set ∉ value_to_original_group_sets doc v) := by
  have hne : nonModifiedStr ≠ modifiedStr := by decide
  have hgs : (mkRow doc sr cg gid v).group_status =
      group_status (value_to_original_group_sets doc v) cg.values_set := rfl
  rw [hgs]
  unfold group_status
  by_cases h : cg.values_set ∈ value_to_original_group_sets doc v
  · rw [if_pos h]
    exact ⟨⟨fun _ => h, fun _ => rfl⟩, ⟨fun he => absurd he hne, fun hc => absurd h hc⟩⟩
  · rw [if_neg h]
    exact ⟨⟨fun he => absurd he.symm hne, fun hm => absurd hm h⟩, ⟨fun _ => h, fun _ => rfl⟩⟩

/-- The single cleaned group of `exampleDoc` as the reconciler sees it. -/
def c7Group : CleanGroup :=
  { names := [pyOfString "A", pyOfString "B", pyOfString "C"]
    values := [pyOfString "1", pyOfString "2"]
    dependents := [pyOfString "d1:X"]
    values_set := {pyOfString "1", pyOfString "2"} }

theorem claim_C7_witness :
    ((mkRow exampleDoc 1 c7Group (pyOfString "G3") (pyOfString "1")).group_status =
        nonModifiedStr ↔
      c7Group.values_set ∈ value_to_original_group_sets exampleDoc (pyOfString "1")) ∧
    ((mkRow exampleDoc 1 c7Group (pyOfString "G3") (pyOfString "1")).group_status =
        modifiedStr ↔
      c7Group.values_set ∉ value_to_original_group_sets exampleDoc (pyOfString "1")) :=
by
  have hmg : merged exampleDoc =
      [⟨[pyOfString "A", pyOfString "B", pyOfString "C"],
        [pyOfString "1", pyOfString "2"], {pyOfString "d1"}⟩] := by decide
  have hcg : c7Group ∈ cleaned_groups exampleDoc := by
    rw [cleaned_groups_eq, hmg]
    simp only [List.map_cons, List.map_nil, rebuildOption]
    rw [Finset.sort_singleton]
    exact List.mem_singleton.mpr (by decide)
  exact claim_C7_group_status exampleDoc c7Group hcg (pyOfString "1") (by decide) 1
    (pyOfString "G3")

/- ------------------------------------------------------------------ -/
/- Hybrid numbering: closed form.                                     -/
/- ------------------------------------------------------------------ -/

/-- Position of the first occurrence of `S`. -/
def posOf : List (Finset PyStr) → Finset PyStr → Nat
  | [], _ => 0
  | T :: l, S => if T = S then 0 else posOf l S + 1

theorem posOf_append_left {l1 : List (Finset PyStr)} {S : Finset PyStr} (h : S ∈ l1)
    (l2 : List (Finset PyStr)) : posOf (l1 ++ l2) S = posOf l1 S := by
  induction l1 with
  | nil => simp at h
  | cons T t ih =>
    by_cases hT : T = S
    · simp [posOf, hT]
    · rcases List.mem_cons.mp h with h1 | h1
      · exact absurd h1.symm hT
      · simp [posOf, hT, ih h1]

theorem posOf_append_right {l1 : List (Finset PyStr)} {S : Finset PyStr} (h : S ∉ l1)
    (l2 : List (Finset PyStr)) : posOf (l1 ++ l2) S = l1.length + posOf l2 S := by
  induction l1 with
  | nil => simp [posOf]
  | cons T t ih =>
    have hT : T ≠ S := fun he => h (by simp [he])
    have ht : S ∉ t := fun hm => h (List.mem_cons_of_mem _ hm)
    simp [posOf, hT, ih ht]
    omega

/-- The distinct value sets that receive new identifiers, in order of
    first use, skipping sets that match an original group and sets already
    seen. -/
def newKeysAux (orig2id : Finset PyStr → Option PyStr) :
    List (Finset PyStr) → List CleanGroup → List (Finset PyStr)
  | _, [] => []
  | seen, cg :: rest =>
    if (orig2id cg.values_set).isNone ∧ cg.values_set ∉ seen then
      cg.values_set :: newKeysAux orig2id (seen ++ [cg.values_set]) rest
    else newKeysAux orig2id seen rest

/-- Closed form of the hybrid-numbering fold.  The state invariant: the
    `final_valueset_to_gid` dictionary holds, for each already-seen
    non-original value set, the new identifier determined by its position
    in the first-use order. -/
theorem hybridAssign_spec (orig2id : Finset PyStr → Option PyStr) (n0 : Nat) :
    ∀ (cgs : List CleanGroup) (seen : List (Finset PyStr))
      (fmap : List (Finset PyStr × PyStr)),
      (∀ S, orig2id S = none →
        fmap.find? (fun p => p.1 = S) =
          if S ∈ seen then some (S, gidStr (n0 + posOf seen S)) else none) →
      hybridAssign orig2id cgs (n0 + seen.length) fmap =
        cgs.map (fun cg =>
          (orig2id cg.values_set).getD
            (gidStr (n0 + posOf (seen ++ newKeysAux orig2id seen cgs) cg.values_set)))
  | [], seen, fmap, hinv => rfl
  | cg :: rest, seen, fmap, hinv => by
    rw [List.map_cons]
    unfold hybridAssign
    cases ho : orig2id cg.values_set with
    | some gid =>
      have hinv2 : ∀ S, orig2id S = none →
          ((cg.values_set, gid) :: fmap).find? (fun p => p.1 = S) =
            if S ∈ seen then some (S, gidStr (n0 + posOf seen S)) else none := by
        intro S hS
        have hne : cg.values_set ≠ S := by
          intro he
          rw [he, hS] at ho
          exact Option.noConfusion ho
        rw [List.find?_cons_of_neg _ (by simpa using hne)]
        exact hinv S hS
      have hrec := hybridAssign_spec orig2id n0 rest seen ((cg.values_set, gid) :: fmap)
        hinv2
      dsimp only
      rw [hrec]
      have hnk : newKeysAux orig2id seen (cg :: rest) = newKeysAux orig2id seen rest := by
        simp [newKeysAux, ho]
      rw [hnk]
      rfl
    | none =>
      have hf := hinv cg.values_set ho
      by_cases hs : cg.values_set ∈ seen
      · rw [if_pos hs] at hf
        dsimp only
        rw [hf]
        dsimp only
        have hrec := hybridAssign_spec orig2id n0 rest seen fmap hinv
        rw [hrec]
        have hnk : newKeysAux orig2id seen (cg :: rest) = newKeysAux orig2id seen rest := by
          simp [newKeysAux, ho, hs]
        rw [hnk]
        rw [posOf_append_left hs]
        rfl
      · rw [if_neg hs] at hf
        dsimp only
        rw [hf]
        dsimp only
        have hlen : n0 + seen.length + 1 = n0 + (seen ++ [cg.values_set]).length := by
          simp
          omega
        have hinv2 : ∀ S, orig2id S = none →
            ((cg.values_set, gidStr (n0 + seen.length)) :: fmap).find?
                (fun p => p.1 = S) =
              if S ∈ seen ++ [cg.values_set] then
                some (S, gidStr (n0 + posOf (seen ++ [cg.values_set]) S)) else none := by
          intro S hS
          by_cases hSe : cg.values_set = S
          · subst hSe
            rw [List.find?_cons_of_pos _ (by simp)]
            rw [if_pos (by simp)]
            rw [posOf_append_right hs]
            simp [posOf]
          · rw [List.find?_cons_of_neg _ (by simpa using hSe)]
            rw [hinv S hS]
            by_cases hSs : S ∈ seen
            · rw [if_pos hSs, if_pos (by simp [hSs])]
              rw [posOf_append_left hSs]
            · rw [if_neg hSs, if_neg ?_]
              simp only [List.mem_append, List.mem_singleton]
              rintro (h | h)
              · exact hSs h
              · exact hSe h.symm
        have hrec := hybridAssign_spec orig2id n0 rest (seen ++ [cg.values_set])
          ((cg.values_set, gidStr (n0 + seen.length)) :: fmap) hinv2
        rw [hlen, hrec]
        have hnk : newKeysAux orig2id seen (cg :: rest) =
            cg.values_set :: newKeysAux orig2id (seen ++ [cg.values_set]) rest := by
          simp [newKeysAux, ho, hs]
        rw [hnk]
        rw [show seen ++ cg.values_set :: newKeysAux orig2id (seen ++ [cg.values_set]) rest
            = (seen ++ [cg.values_set]) ++ newKeysAux orig2id (seen ++ [cg.values_set]) rest
          from by rw [List.append_cons]]
        rw [posOf_append_left (by simp)]
        rw [posOf_append_right hs]
        simp [posOf]

/-- C6: each cleaned group whose value set equals some original group's
    value set inherits the first identifier assigned to that set
    (`original_group_set_to_id`); every other group receives
    G(n+1), G(n+2), … in order of first use of its value set, so groups
    with identical value sets receive identical identifiers. -/
theorem claim_C6_hybrid_numbering (doc : List OptionRec) :
    final_group_assignments doc = (cleaned_groups doc).map (fun cg =>
      (original_group_set_to_id doc cg.values_set).getD
        (gidStr (doc.length + 1 +
          posOf (newKeysAux (original_group_set_to_id doc) [] (cleaned_groups doc))
            cg.values_set))) := by
  have h := hybridAssign_spec (original_group_set_to_id doc) (doc.length + 1)
    (cleaned_groups doc) [] [] (by intro S hS; simp)
  simp only [List.length_nil, Nat.add_zero, List.nil_append] at h
  unfold final_group_assignments
  exact h

/- ------------------------------------------------------------------ -/
/- Canonical documents: idempotence machinery.                        -/
/- ------------------------------------------------------------------ -/

/-- Under per-record value-token disjointness (with every record's value
    list non-empty and no longer than its name list), each token's unified
    dependent set is its own record's dependent set. -/
theorem value_to_deps_of_disjoint (doc : List OptionRec)
    (hdisj : doc.Pairwise (fun o1 o2 =>
      ∀ t, t ∈ _split_field o1.value → t ∉ _split_field o2.value))
    (hlen : ∀ o ∈ doc, 1 ≤ (_split_field o.value).length ∧
      (_split_field o.value).length ≤ (_split_field o.name).length)
    {o : OptionRec} (ho : o ∈ doc) {v : PyStr} (hv : v ∈ _split_field o.value) :
    value_to_deps (flatten doc) v = depIdSet o := by
  have hsymm : Symmetric (fun o1 o2 : OptionRec =>
      ∀ t, t ∈ _split_field o1.value → t ∉ _split_field o2.value) := by
    intro a b hab t ht hta
    exact hab t hta ht
  apply Finset.ext
  intro x
  rw [mem_value_to_deps]
  constructor
  · rintro ⟨it, hit, hval, hx⟩
    obtain ⟨o', ho', hito'⟩ := List.mem_flatMap.mp hit
    have hvne : _split_field o'.value ≠ [] := by
      have h1 := (hlen o' ho').1
      intro he
      rw [he] at h1
      simp at h1
    have hvtok : v ∈ _split_field o'.value := by
      rcases flat_value_cases hito' with h | ⟨-, he⟩
      · rw [← hval]
        exact h
      · exact absurd he hvne
    have hoo : o' = o := by
      by_contra hne
      exact (List.Pairwise.forall hsymm hdisj ho' ho hne) v hvtok hv
    have hdep := (mem_flatOfOption hito').1
    rw [hdep, hoo] at hx
    exact hx
  · intro hx
    obtain ⟨i, hi, hget⟩ := List.mem_iff_getElem.mp hv
    have hlt : i < (_split_field o.name).length := lt_of_lt_of_le hi (hlen o ho).2
    refine ⟨_, List.mem_flatMap.mpr ⟨o, ho, flatOfOption_mem_intro hlt⟩, ?_, hx⟩
    show pairValue (_split_field o.value) i = v
    rw [pairValue_lt hi]
    exact hget

theorem addNew_nil (x : PyStr) : addNew [] x = [x] := by simp [addNew]

theorem foldl_addNew_fresh : ∀ (l acc : List PyStr), l.Nodup → (∀ x ∈ l, x ∉ acc) →
    List.foldl addNew acc l = acc ++ l
  | [], acc, _, _ => by simp
  | x :: t, acc, hnd, hfr => by
    rw [List.foldl_cons]
    have hx : addNew acc x = acc ++ [x] := by
      unfold addNew
      rw [if_neg (hfr x (by simp))]
    rw [hx, foldl_addNew_fresh t (acc ++ [x]) (List.nodup_cons.mp hnd).2 ?_]
    · simp
    · intro y hy
      simp only [List.mem_append, List.mem_singleton]
      rintro (h | h)
      · exact hfr y (List.mem_cons_of_mem _ hy) h
      · exact (List.nodup_cons.mp hnd).1 (h ▸ hy)

theorem foldl_addNew_absorb : ∀ (l acc : List PyStr), (∀ x ∈ l, x ∈ acc) →
    List.foldl addNew acc l = acc
  | [], _, _ => rfl
  | x :: t, acc, h => by
    rw [List.foldl_cons]
    have hx : addNew acc x = acc := by
      unfold addNew
      rw [if_pos (h x (by simp))]
    rw [hx]
    exact foldl_addNew_absorb t acc (fun y hy => h y (List.mem_cons_of_mem _ hy))

/-- The per-group accumulation step of STEP 3. -/
def accGroup (h : MergedGroup) (it : FlatItem) : MergedGroup :=
  ⟨addNew h.names it.name, addNew h.values it.value, h.deps⟩

theorem foldl_accGroup_names : ∀ (items : List FlatItem) (g : MergedGroup),
    (items.foldl accGroup g).names =
      List.foldl addNew g.names (items.map (fun it => it.name))
  | [], _ => rfl
  | it :: t, g => by
    rw [List.foldl_cons, List.map_cons, List.foldl_cons]
    exact foldl_accGroup_names t _

theorem foldl_accGroup_values : ∀ (items : List FlatItem) (g : MergedGroup),
    (items.foldl accGroup g).values =
      List.foldl addNew g.values (items.map (fun it => it.value))
  | [], _ => rfl
  | it :: t, g => by
    rw [List.foldl_cons, List.map_cons, List.foldl_cons]
    exact foldl_accGroup_values t _

theorem foldl_accGroup_deps : ∀ (items : List FlatItem) (g : MergedGroup),
    (items.foldl accGroup g).deps = g.deps
  | [], _ => rfl
  | it :: t, g => by
    rw [List.foldl_cons]
    exact foldl_accGroup_deps t _

theorem flatOfOption_map_name (o : OptionRec) :
    (flatOfOption o).map (fun it => it.name) = _split_field o.name := by
  unfold flatOfOption
  rw [List.map_map]
  have h : ((fun it : FlatItem => it.name) ∘ fun p : Nat × PyStr =>
      ({ name := p.2, value := pairValue (_split_field o.value) p.1,
         deps := depIdSet o } : FlatItem)) = Prod.snd := rfl
  rw [h, List.enum_map_snd]

theorem flatOfOption_map_value (o : OptionRec) :
    (flatOfOption o).map (fun it => it.value) =
      (List.range (_split_field o.name).length).map (pairValue (_split_field o.value)) := by
  unfold flatOfOption
  rw [List.map_map]
  have h : ((fun it : FlatItem => it.value) ∘ fun p : Nat × PyStr =>
      ({ name := p.2, value := pairValue (_split_field o.value) p.1,
         deps := depIdSet o } : FlatItem)) =
      pairValue (_split_field o.value) ∘ Prod.fst := rfl
  rw [h, ← List.map_map, List.enum_map_fst]

theorem map_pairValue_range (values : List PyStr) (n : Nat) (h1 : values ≠ [])
    (h2 : values.length ≤ n) :
    (List.range n).map (pairValue values) =
      values ++ List.replicate (n - values.length) (values.getLast h1) := by
  apply List.ext_getElem
  · simp
    omega
  · intro i hi1 hi2
    rw [List.getElem_map, List.getElem_range]
    by_cases hlt : i < values.length
    · rw [List.getElem_append_left hlt, pairValue_lt hlt]
      simp [List.get_eq_getElem]
    · have hge : values.length ≤ i := le_of_not_lt hlt
      rw [List.getElem_append_right hge, pairValue_ge hge h1, List.getElem_replicate]

/-- Folding one record's items into the group created for it. -/
theorem block_fold (o : OptionRec) (hN : (_split_field o.name).Nodup)
    (hV : (_split_field o.value).Nodup)
    (h1 : 1 ≤ (_split_field o.value).length)
    (h2 : (_split_field o.value).length ≤ (_split_field o.name).length) :
    (flatOfOption o).foldl accGroup ⟨[], [], depIdSet o⟩ =
      ⟨_split_field o.name, _split_field o.value, depIdSet o⟩ := by
  have hvne : _split_field o.value ≠ [] := by
    intro he
    rw [he] at h1
    simp at h1
  have hnames : ((flatOfOption o).foldl accGroup ⟨[], [], depIdSet o⟩).names =
      _split_field o.name := by
    rw [foldl_accGroup_names, flatOfOption_map_name]
    have := foldl_addNew_fresh (_split_field o.name) [] hN (by simp)
    rw [this]
    simp
  have hvalues : ((flatOfOption o).foldl accGroup ⟨[], [], depIdSet o⟩).values =
      _split_field o.value := by
    rw [foldl_accGroup_values, flatOfOption_map_value,
      map_pairValue_range _ _ hvne h2, List.foldl_append,
      foldl_addNew_fresh _ [] hV (by simp)]
    simp only [List.nil_append]
    apply foldl_addNew_absorb
    intro x hx
    rw [List.eq_of_mem_replicate hx]
    exact List.getLast_mem hvne
  have hdeps : ((flatOfOption o).foldl accGroup ⟨[], [], depIdSet o⟩).deps = depIdSet o :=
    foldl_accGroup_deps _ _
  calc (flatOfOption o).foldl accGroup ⟨[], [], depIdSet o⟩
      = ⟨((flatOfOption o).foldl accGroup ⟨[], [], depIdSet o⟩).names,
         ((flatOfOption o).foldl accGroup ⟨[], [], depIdSet o⟩).values,
         ((flatOfOption o).foldl accGroup ⟨[], [], depIdSet o⟩).deps⟩ := rfl
    _ = ⟨_split_field o.name, _split_field o.value, depIdSet o⟩ := by
        rw [hnames, hvalues, hdeps]

theorem insertItem_fresh {key : Finset PyStr} {n v : PyStr} {gs : List MergedGroup}
    (h : key ∉ gs.map (fun g => g.deps)) :
    insertItem key n v gs = gs ++ [⟨[n], [v], key⟩] := by
  induction gs with
  | nil => rfl
  | cons g t ih =>
    have hne : g.deps ≠ key := fun he => h (by simp [he])
    simp only [insertItem, if_neg hne, List.cons_append]
    rw [ih (fun hm => h (List.mem_cons_of_mem _ hm))]

theorem insertItem_last {gs : List MergedGroup} {g' : MergedGroup}
    (h : g'.deps ∉ gs.map (fun g => g.deps)) (n v : PyStr) :
    insertItem g'.deps n v (gs ++ [g']) =
      gs ++ [⟨addNew g'.names n, addNew g'.values v, g'.deps⟩] := by
  induction gs with
  | nil => simp [insertItem]
  | cons g t ih =>
    have hne : g.deps ≠ g'.deps := fun he => h (by simp [he])
    simp only [List.cons_append, insertItem, if_neg hne]
    exact congrArg (g :: ·) (ih (fun hm => h (List.mem_cons_of_mem _ hm)))

theorem foldl_insert_block (u : PyStr → Finset PyStr) :
    ∀ (items : List FlatItem) (gs : List MergedGroup) (g' : MergedGroup),
      (∀ it ∈ items, u it.value = g'.deps) →
      g'.deps ∉ gs.map (fun g => g.deps) →
      items.foldl (fun gs it => insertItem (u it.value) it.name it.value gs) (gs ++ [g']) =
        gs ++ [items.foldl accGroup g']
  | [], _, _, _, _ => rfl
  | it :: t, gs, g', hkeys, hfresh => by
    rw [List.foldl_cons, List.foldl_cons]
    have hk : u it.value = g'.deps := hkeys it (by simp)
    rw [hk, insertItem_last hfresh]
    have hstep : (⟨addNew g'.names it.name, addNew g'.values it.value, g'.deps⟩ :
        MergedGroup) = accGroup g' it := rfl
    rw [hstep]
    exact foldl_insert_block u t gs (accGroup g' it)
      (fun it' h' => hkeys it' (List.mem_cons_of_mem _ h'))
      hfresh

/-- Processing records whose keys are fresh and pairwise distinct appends
    one group per record, in order. -/
theorem foldl_blocks (u : PyStr → Finset PyStr) :
    ∀ (docR : List OptionRec) (gs : List MergedGroup),
      (∀ o ∈ docR, ∀ it ∈ flatOfOption o, u it.value = depIdSet o) →
      (∀ o ∈ docR, depIdSet o ∉ gs.map (fun g => g.deps)) →
      (docR.map depIdSet).Nodup →
      (∀ o ∈ docR, flatOfOption o ≠ []) →
      (flatten docR).foldl (fun gs it => insertItem (u it.value) it.name it.value gs) gs =
        gs ++ docR.map (fun o => (flatOfOption o).foldl accGroup ⟨[], [], depIdSet o⟩)
  | [], gs, _, _, _, _ => by simp [flatten]
  | o :: rest, gs, hkeys, hfresh, hnd, hne => by
    have hflat : flatten (o :: rest) = flatOfOption o ++ flatten rest := by
      simp [flatten]
    rw [hflat, List.foldl_append]
    rcases hcase : flatOfOption o with _ | ⟨it0, items⟩
    · exact absurd hcase (hne o (by simp))
    · rw [List.foldl_cons]
      have hk0 : u it0.value = depIdSet o :=
        hkeys o (by simp) it0 (by rw [hcase]; simp)
      have hfr0 : u it0.value ∉ gs.map (fun g => g.deps) := by
        rw [hk0]
        exact hfresh o (by simp)
      rw [insertItem_fresh hfr0]
      have hstep : (⟨[it0.name], [it0.value], u it0.value⟩ : MergedGroup) =
          accGroup ⟨[], [], depIdSet o⟩ it0 := by
        simp [accGroup, addNew_nil, hk0]
      rw [hstep]
      have hblock := foldl_insert_block u items gs (accGroup ⟨[], [], depIdSet o⟩ it0)
        (fun it' h' => by
          rw [show (accGroup ⟨[], [], depIdSet o⟩ it0).deps = depIdSet o from rfl]
          exact hkeys o (by simp) it' (by rw [hcase]; exact List.mem_cons_of_mem _ h'))
        (by
          rw [show (accGroup ⟨[], [], depIdSet o⟩ it0).deps = depIdSet o from rfl]
          exact hfresh o (by simp))
      rw [hblock]
      have hb0 : items.foldl accGroup (accGroup ⟨[], [], depIdSet o⟩ it0) =
          (flatOfOption o).foldl accGroup ⟨[], [], depIdSet o⟩ := by
        rw [hcase, List.foldl_cons]
      rw [hb0]
      have hrest := foldl_blocks u rest
        (gs ++ [(flatOfOption o).foldl accGroup ⟨[], [], depIdSet o⟩])
        (fun o' ho' it hit => hkeys o' (List.mem_cons_of_mem _ ho') it hit)
        (fun o' ho' => by
          rw [List.map_append, List.mem_append]
          rintro (hm | hm)
          · exact hfresh o' (List.mem_cons_of_mem _ ho') hm
          · simp only [List.map_cons, List.map_nil, List.mem_singleton] at hm
            rw [foldl_accGroup_deps] at hm
            dsimp only at hm
            have hmem2 : depIdSet o ∈ (rest.map depIdSet) := by
              rw [← hm]
              exact List.mem_map_of_mem _ ho'
            exact (List.nodup_cons.mp hnd).1 hmem2
          )
        (List.nodup_cons.mp hnd).2
        (fun o' ho' => hne o' (List.mem_cons_of_mem _ ho'))
      rw [hrest]
      simp

/-- Re-tokenizing the comma-join of a list of non-empty clean tokens gives
    the list back. -/
theorem split_of_join_tokens (l : List PyStr)
    (h : ∀ t ∈ l, t ≠ [] ∧ strip t = t ∧ ',' ∉ t) :
    _split_field (joinComma l) = l := by
  rw [split_field_joinComma (fun t ht => (h t ht).2)]
  exact List.filter_eq_self.mpr (fun t ht => by simpa using (h t ht).1)

/-- On an already-canonical document the merger reproduces the records
    one-to-one, in order. -/
theorem merged_of_canonical (doc : List OptionRec)
    (hnodup : ∀ o ∈ doc, (_split_field o.name).Nodup ∧ (_split_field o.value).Nodup)
    (hdeps : (doc.map depIdSet).Nodup)
    (hdisj : doc.Pairwise (fun o1 o2 =>
      ∀ t, t ∈ _split_field o1.value → t ∉ _split_field o2.value))
    (hlen : ∀ o ∈ doc, 1 ≤ (_split_field o.value).length ∧
      (_split_field o.value).length ≤ (_split_field o.name).length) :
    merged doc =
      doc.map (fun o => ⟨_split_field o.name, _split_field o.value, depIdSet o⟩) := by
  unfold merged mergeGroups
  have hkeys : ∀ o ∈ doc, ∀ it ∈ flatOfOption o,
      value_to_deps (flatten doc) it.value = depIdSet o := by
    intro o ho it hit
    have hvne : _split_field o.value ≠ [] := by
      have h1 := (hlen o ho).1
      intro he
      rw [he] at h1
      simp at h1
    have hvtok : it.value ∈ _split_field o.value := by
      rcases flat_value_cases hit with h | ⟨-, he⟩
      · exact h
      · exact absurd he hvne
    exact value_to_deps_of_disjoint doc hdisj hlen ho hvtok
  have hne : ∀ o ∈ doc, flatOfOption o ≠ [] := by
    intro o ho he
    have hl := flatOfOption_length o
    rw [he] at hl
    simp only [List.length_nil] at hl
    obtain ⟨ha, hb⟩ := hlen o ho
    omega
  rw [foldl_blocks (value_to_deps (flatten doc)) doc [] hkeys (by simp) hdeps hne]
  simp only [List.nil_append]
  apply List.map_congr_left
  intro o ho
  exact block_fold o (hnodup o ho).1 (hnodup o ho).2 (hlen o ho).1 (hlen o ho).2

/-- C4, amended: canonicalizing a document whose options have
    duplicate-free name and value token lists, pairwise distinct dependent
    sets, pairwise disjoint value token lists, and value lists that are
    non-empty and no longer than the name lists, preserves the number of
    groups and each group's name and value token sets (position by
    position). -/
theorem claim_C4_amended (doc : List OptionRec)
    (hnodup : ∀ o ∈ doc, (_split_field o.name).Nodup ∧ (_split_field o.value).Nodup)
    (hdeps : (doc.map depIdSet).Nodup)
    (hdisj : doc.Pairwise (fun o1 o2 =>
      ∀ t, t ∈ _split_field o1.value → t ∉ _split_field o2.value))
    (hlen : ∀ o ∈ doc, 1 ≤ (_split_field o.value).length ∧
      (_split_field o.value).length ≤ (_split_field o.name).length) :
    (generate_clean_xml_from_root doc).length = doc.length ∧
    ∀ i o co, doc.get? i = some o →
      (generate_clean_xml_from_root doc).get? i = some co →
      (_split_field co.name).toFinset = (_split_field o.name).toFinset ∧
      (_split_field co.value).toFinset = (_split_field o.value).toFinset := by
  have hm := merged_of_canonical doc hnodup hdeps hdisj hlen
  constructor
  · unfold generate_clean_xml_from_root
    rw [hm]
    simp
  · intro i o co hgo hgco
    unfold generate_clean_xml_from_root at hgco
    rw [hm, List.map_map, List.get?_map, hgo] at hgco
    have hoo : o ∈ doc := by
      have := List.get?_mem hgo
      exact this
    have hco : co = rebuildOption doc ⟨_split_field o.name, _split_field o.value,
        depIdSet o⟩ := by
      rw [Option.map_some'] at hgco
      injection hgco with h
      exact h.symm
    have hnametok : _split_field (joinComma (_split_field o.name)) =
        _split_field o.name :=
      split_of_join_tokens _ (fun t ht => mem_split_field ht)
    have hvaltok : _split_field (joinComma (_split_field o.value)) =
        _split_field o.value :=
      split_of_join_tokens _ (fun t ht => mem_split_field ht)
    rw [hco]
    constructor
    · rw [show (rebuildOption doc ⟨_split_field o.name, _split_field o.value,
          depIdSet o⟩).name = joinComma (_split_field o.name) from rfl, hnametok]
    · rw [show (rebuildOption doc ⟨_split_field o.name, _split_field o.value,
          depIdSet o⟩).value = joinComma (_split_field o.value) from rfl, hvaltok]

/-- Two single-name, single-value options with distinct dependent sets but
    the same value token: the claim's hypotheses hold, yet canonicalization
    merges them into one group. -/
def c4Doc : List OptionRec :=
  [⟨pyOfString "A", pyOfString "1", [⟨pyOfString "d1", pyOfString "X"⟩]⟩,
   ⟨pyOfString "B", pyOfString "1", [⟨pyOfString "d2", pyOfString "Y"⟩]⟩]

/-- C4 as stated is false: `c4Doc` has duplicate-free name/value lists and
    distinct (hence merge-minimal in the claim's sense) dependent sets, yet
    the canonical output has one group, not two — value 1's unified set is
    the union {d1, d2}. -/
theorem claim_C4_counterexample :
    (∀ o ∈ c4Doc, (_split_field o.name).Nodup ∧ (_split_field o.value).Nodup) ∧
    (c4Doc.map depIdSet).Nodup ∧
    (generate_clean_xml_from_root c4Doc).length ≠ c4Doc.length := by decide

/-- An already-canonical two-group document. -/
def c4Good : List OptionRec :=
  [⟨pyOfString "A,B", pyOfString "1,2", [⟨pyOfString "d1", pyOfString "X"⟩]⟩,
   ⟨pyOfString "C", pyOfString "3", [⟨pyOfString "d2", pyOfString "Y"⟩]⟩]

theorem claim_C4_witness :
    (∀ o ∈ c4Good, (_split_field o.name).Nodup ∧ (_split_field o.value).Nodup) ∧
    (c4Good.map depIdSet).Nodup ∧
    c4Good.Pairwise (fun o1 o2 =>
      ∀ t, t ∈ _split_field o1.value → t ∉ _split_field o2.value) ∧
    (∀ o ∈ c4Good, 1 ≤ (_split_field o.value).length ∧
      (_split_field o.value).length ≤ (_split_field o.name).length) ∧
    (generate_clean_xml_from_root c4Good).length = c4Good.length :=
  ⟨by decide, by decide, by decide, by decide,
    (claim_C4_amended c4Good (by decide) (by decide) (by decide) (by decide)).1⟩

/- ------------------------------------------------------------------ -/
/- Error-instrumented pipeline: the operations that can raise in Python -/
/- (list subscripts and dictionary subscripts) return Except, while the  -/
/- `.get(..., default)` fallbacks stay total.                            -/
/- ------------------------------------------------------------------ -/

/-- `values[idx]` for a non-negative index: raises IndexError when out of
    range. -/
def pyGetE (l : List PyStr) (i : Nat) : Except String PyStr :=
  match l.get? i with
  | some v => Except.ok v
  | none => Except.error "IndexError: list index out of range"

/-- `values[-1]`: raises IndexError on an empty list. -/
def pyLastE (l : List PyStr) : Except String PyStr :=
  match l.getLast? with
  | some v => Except.ok v
  | none => Except.error "IndexError: list index out of range"

/-- The pairing expression
    `values[idx] if idx < len(values) else values[-1] if values else ""`. -/
def pairValueE (values : List PyStr) (idx : Nat) : Except String PyStr :=
  if idx < values.length then pyGetE values idx
  else if values ≠ [] then pyLastE values
  else Except.ok []

/-- Monadic map, mirroring a Python for-loop that may raise. -/
def mapME (f : α → Except String β) : List α → Except String (List β)
  | [] => Except.ok []
  | x :: t => do
    let y ← f x
    let ys ← mapME f t
    pure (y :: ys)

/-- Monadic fold, mirroring a Python for-loop that may raise. -/
def foldlME (f : β → α → Except String β) : β → List α → Except String β
  | b, [] => Except.ok b
  | b, x :: t => do
    let b' ← f b x
    foldlME f b' t

theorem pairValueE_ok (values : List PyStr) (idx : Nat) :
    pairValueE values idx = Except.ok (pairValue values idx) := by
  unfold pairValueE pairValue pyGetE pyLastE
  by_cases h : idx < values.length
  · rw [if_pos h, List.get?_eq_get h]
  · rw [if_neg h, List.get?_eq_none.mpr (le_of_not_lt h)]
    by_cases hne : values = []
    · rw [if_neg (by simpa using hne), hne]
      rfl
    · rw [if_pos (by simpa using hne)]
      obtain ⟨v, hv⟩ := Option.ne_none_iff_exists'.mp
        (mt List.getLast?_eq_none_iff.mp hne)
      rw [hv]

theorem mapME_ok {f : α → Except String β} {g : α → β} :
    ∀ {l : List α}, (∀ x ∈ l, f x = Except.ok (g x)) → mapME f l = Except.ok (l.map g)
  | [], _ => rfl
  | x :: t, h => by
    unfold mapME
    rw [h x (by simp), mapME_ok (fun y hy => h y (List.mem_cons_of_mem _ hy))]
    rfl

/-- Flattening with checked subscripts. -/
def flatOfOptionE (o : OptionRec) : Except String (List FlatItem) :=
  mapME (fun p => do
      let v ← pairValueE (_split_field o.value) p.1
      pure { name := p.2, value := v, deps := depIdSet o })
    (_split_field o.name).enum

def flattenE (doc : List OptionRec) : Except String (List FlatItem) := do
  let ls ← mapME flatOfOptionE doc
  pure ls.flatten

theorem flatOfOptionE_ok (o : OptionRec) : flatOfOptionE o = Except.ok (flatOfOption o) := by
  unfold flatOfOptionE flatOfOption
  apply mapME_ok
  intro p _
  rw [pairValueE_ok]
  rfl

theorem flattenE_ok (doc : List OptionRec) : flattenE doc = Except.ok (flatten doc) := by
  unfold flattenE
  rw [mapME_ok (fun o _ => flatOfOptionE_ok o)]
  show Except.ok ((doc.map flatOfOption).flatten) = _
  rw [← List.flatMap_def]
  rfl

/-- One iteration of the `value_to_deps` building loop: setdefault to the
    empty set, then union in the item's dependent set. -/
def dictStep (m : List (PyStr × Finset PyStr)) (it : FlatItem) :
    List (PyStr × Finset PyStr) :=
  match m.find? (fun p => p.1 = it.value) with
  | some _ => m.map (fun p => if p.1 = it.value then (p.1, p.2 ∪ it.deps) else p)
  | none => m ++ [(it.value, it.deps)]

/-- The `value_to_deps` dictionary as the loop builds it. -/
def buildValueDeps (flat : List FlatItem) : List (PyStr × Finset PyStr) :=
  flat.foldl dictStep []

/-- Dictionary subscript: raises KeyError when the key is absent. -/
def dictGetE (m : List (PyStr × Finset PyStr)) (k : PyStr) :
    Except String (Finset PyStr) :=
  match m.find? (fun p => p.1 = k) with
  | some p => Except.ok p.2
  | none => Except.error "KeyError"

theorem find?_map_keypres {f : PyStr × Finset PyStr → PyStr × Finset PyStr}
    (hf : ∀ p, (f p).1 = p.1) (v : PyStr) :
    ∀ m : List (PyStr × Finset PyStr),
      (m.map f).find? (fun p => p.1 = v) = (m.find? (fun p => p.1 = v)).map f
  | [] => rfl
  | p :: t => by
    rw [List.map_cons]
    by_cases h : p.1 = v
    · rw [List.find?_cons_of_pos _ (by simp [hf, h]),
        List.find?_cons_of_pos _ (by simp [h])]
      rfl
    · rw [List.find?_cons_of_neg _ (by simp [hf, h]),
        List.find?_cons_of_neg _ (by simp [h])]
      exact find?_map_keypres hf v t

theorem any_value_false_deps {seen : List FlatItem} {v : PyStr}
    (h : seen.any (fun it => it.value = v) = false) :
    value_to_deps seen v = ∅ := by
  unfold value_to_deps
  rw [List.filter_eq_nil_iff.mpr ?_]
  · rfl
  · intro it hit
    have := List.any_eq_false.mp h it hit
    simpa using this

/-- The dictionary invariant: an entry per value seen so far, holding the
    union of its dependent sets. -/
def DictInv (seen : List FlatItem) (m : List (PyStr × Finset PyStr)) : Prop :=
  ∀ v, m.find? (fun p => p.1 = v) =
    if seen.any (fun it => it.value = v) then some (v, value_to_deps seen v) else none

theorem dictStep_inv {seen : List FlatItem} {m : List (PyStr × Finset PyStr)}
    (hinv : DictInv seen m) (it : FlatItem) :
    DictInv (seen ++ [it]) (dictStep m it) := by
  intro w
  have hone : value_to_deps (seen ++ [it]) w =
      value_to_deps seen w ∪ (if it.value = w then it.deps else ∅) := by
    rw [value_to_deps_append, value_to_deps_cons]
    by_cases h : it.value = w <;> simp [h, value_to_deps]
  unfold dictStep
  cases hfind : m.find? (fun p => p.1 = it.value) with
  | some q =>
    have hseen : seen.any (fun x => x.value = it.value) = true := by
      by_contra hc
      rw [hinv it.value, if_neg (by simpa using hc)] at hfind
      exact Option.noConfusion hfind
    rw [find?_map_keypres (fun p => by by_cases hp : p.1 = it.value <;> simp [hp]) w m,
      hinv w]
    by_cases hw : it.value = w
    · subst hw
      rw [if_pos hseen,
        if_pos (show (seen ++ [it]).any (fun x => x.value = it.value) = true by
          simp [List.any_append, hseen])]
      simp only [Option.map_some']
      rw [hone, if_pos rfl]
      simp
    · have hw2 : ¬ (w = it.value) := fun he => hw he.symm
      have hany : (seen ++ [it]).any (fun x => x.value = w) =
          seen.any (fun x => x.value = w) := by
        simp [List.any_append, hw]
      rw [hany, hone, if_neg hw, Finset.union_empty]
      by_cases hs : seen.any (fun x => x.value = w) = true
      · rw [if_pos hs]
        simp [hw2]
      · rw [if_neg hs]
        rfl
  | none =>
    have hseen : seen.any (fun x => x.value = it.value) = false := by
      by_contra hc
      simp only [Bool.not_eq_false] at hc
      rw [hinv it.value, if_pos hc] at hfind
      exact Option.noConfusion hfind
    rw [List.find?_append, hinv w]
    by_cases hw : it.value = w
    · subst hw
      rw [if_neg (by simp [hseen]),
        show ([(it.value, it.deps)].find? (fun p => p.1 = it.value)) =
          some (it.value, it.deps) from List.find?_cons_of_pos _ (by simp),
        if_pos (show (seen ++ [it]).any (fun x => x.value = it.value) = true by
          simp [List.any_append]),
        hone, if_pos rfl, any_value_false_deps hseen]
      simp
    · have hw2 : ¬ (w = it.value) := fun he => hw he.symm
      have hsing : ([(it.value, it.deps)].find? (fun p => p.1 = w)) = none := by
        rw [List.find?_cons_of_neg _ (by simp only [decide_eq_true_eq]; exact hw)]
        rfl
      rw [hsing, hone, if_neg hw, Finset.union_empty]
      have hany : (seen ++ [it]).any (fun x => x.value = w) =
          seen.any (fun x => x.value = w) := by
        simp [List.any_append, hw]
      rw [hany]
      by_cases hs : seen.any (fun x => x.value = w) = true
      · rw [if_pos hs]
        rfl
      · rw [if_neg hs]
        rfl

theorem buildValueDeps_inv :
    ∀ (flat seen : List FlatItem) (m : List (PyStr × Finset PyStr)),
      DictInv seen m → DictInv (seen ++ flat) (flat.foldl dictStep m)
  | [], seen, m, h => by simpa using h
  | it :: rest, seen, m, h => by
    rw [List.foldl_cons]
    have hrec := buildValueDeps_inv rest (seen ++ [it]) (dictStep m it) (dictStep_inv h it)
    simpa using hrec

theorem dictGetE_buildValueDeps {flat : List FlatItem} {v : PyStr}
    (hv : flat.any (fun it => it.value = v) = true) :
    dictGetE (buildValueDeps flat) v = Except.ok (value_to_deps flat v) := by
  have h := buildValueDeps_inv flat [] [] (fun w => by simp) v
  simp only [List.nil_append] at h
  unfold dictGetE buildValueDeps
  rw [h, if_pos hv]

theorem foldlME_ok {f : β → α → Except String β} {g : β → α → β} :
    ∀ (l : List α) (b : β), (∀ x ∈ l, ∀ acc, f acc x = Except.ok (g acc x)) →
      foldlME f b l = Except.ok (l.foldl g b)
  | [], _, _ => rfl
  | x :: t, b, h => by
    unfold foldlME
    rw [h x (by simp) b]
    show foldlME f (g b x) t = _
    rw [foldlME_ok t (g b x) (fun y hy acc => h y (List.mem_cons_of_mem _ hy) acc),
      List.foldl_cons]

/-- STEP 3 with the `value_to_deps[val]` dictionary subscript checked. -/
def mergeGroupsE (m : List (PyStr × Finset PyStr)) (flat : List FlatItem) :
    Except String (List MergedGroup) :=
  foldlME (fun gs it => do
      let key ← dictGetE m it.value
      pure (insertItem key it.name it.value gs))
    [] flat

theorem mergeGroupsE_ok (doc : List OptionRec) :
    mergeGroupsE (buildValueDeps (flatten doc)) (flatten doc) =
      Except.ok (mergeGroups (value_to_deps (flatten doc)) (flatten doc)) := by
  unfold mergeGroupsE mergeGroups
  apply foldlME_ok
  intro it hit acc
  have hany : (flatten doc).any (fun x => x.value = it.value) = true :=
    List.any_eq_true.mpr ⟨it, hit, by simp⟩
  rw [dictGetE_buildValueDeps hany]
  rfl

/-- `generate_clean_xml_from_root` with every fallible operation checked. -/
def generate_clean_E (doc : List OptionRec) : Except String (List OptionRec) := do
  let flat ← flattenE doc
  let m := buildValueDeps flat
  let groups ← mergeGroupsE m flat
  pure (groups.map (rebuildOption doc))

theorem generate_clean_E_ok (doc : List OptionRec) :
    generate_clean_E doc = Except.ok (generate_clean_xml_from_root doc) := by
  unfold generate_clean_E
  rw [flattenE_ok]
  show (do
    let groups ← mergeGroupsE (buildValueDeps (flatten doc)) (flatten doc)
    pure (groups.map (rebuildOption doc)) : Except String _) = _
  rw [mergeGroupsE_ok]
  rfl

/-- The first-seen-name loop (lines 329-335) with checked subscripts. -/
def origNamePairsE (doc : List OptionRec) : Except String (List (PyStr × PyStr)) := do
  let ls ← mapME (fun o => mapME (fun p => do
      let v ← pairValueE (_split_field o.value) p.1
      pure (p.2, v)) (_split_field o.name).enum) doc
  pure ls.flatten

theorem origNamePairsE_ok (doc : List OptionRec) :
    origNamePairsE doc = Except.ok (origNamePairs doc) := by
  unfold origNamePairsE
  have h : mapME (fun o => mapME (fun p => do
      let v ← pairValueE (_split_field o.value) p.1
      pure (p.2, v)) (_split_field o.name).enum) doc =
      Except.ok (doc.map (fun o => (_split_field o.name).enum.map
        (fun p => (p.2, pairValue (_split_field o.value) p.1)))) :=
    mapME_ok (fun o _ => mapME_ok (fun p _ => by rw [pairValueE_ok]; rfl))
  rw [h]
  show Except.ok ((doc.map _).flatten) = _
  rw [← List.flatMap_def]
  rfl

/-- `original_group_set_to_id[s]`: raises KeyError when absent. -/
def o2iSubscriptE (doc : List OptionRec) (s : Finset PyStr) : Except String PyStr :=
  match original_group_set_to_id doc s with
  | some g => Except.ok g
  | none => Except.error "KeyError"

/-- The hybrid numbering loop with its guarded dictionary subscript
    checked. -/
def hybridAssignE (doc : List OptionRec) :
    List CleanGroup → Nat → List (Finset PyStr × PyStr) → Except String (List PyStr)
  | [], _, _ => Except.ok []
  | cg :: rest, next, fmap =>
    if (original_group_set_to_id doc cg.values_set).isSome then do
      let gid ← o2iSubscriptE doc cg.values_set
      let gids ← hybridAssignE doc rest next ((cg.values_set, gid) :: fmap)
      pure (gid :: gids)
    else
      match fmap.find? (fun p => p.1 = cg.values_set) with
      | some p => do
        let gids ← hybridAssignE doc rest next fmap
        pure (p.2 :: gids)
      | none => do
        let gids ← hybridAssignE doc rest (next + 1) ((cg.values_set, gidStr next) :: fmap)
        pure (gidStr next :: gids)

theorem hybridAssignE_ok (doc : List OptionRec) :
    ∀ (cgs : List CleanGroup) (next : Nat) (fmap : List (Finset PyStr × PyStr)),
      hybridAssignE doc cgs next fmap =
        Except.ok (hybridAssign (original_group_set_to_id doc) cgs next fmap)
  | [], _, _ => rfl
  | cg :: rest, next, fmap => by
    unfold hybridAssignE hybridAssign
    cases ho : original_group_set_to_id doc cg.values_set with
    | some g =>
      rw [if_pos (by rfl)]
      unfold o2iSubscriptE
      rw [ho]
      show (do
        let gids ← hybridAssignE doc rest next ((cg.values_set, g) :: fmap)
        pure (g :: gids) : Except String _) = _
      rw [hybridAssignE_ok doc rest next ((cg.values_set, g) :: fmap)]
      rfl
    | none =>
      rw [if_neg (by simp)]
      cases hf : fmap.find? (fun p => p.1 = cg.values_set) with
      | some p =>
        show (do
          let gids ← hybridAssignE doc rest next fmap
          pure (p.2 :: gids) : Except String _) = _
        rw [hybridAssignE_ok doc rest next fmap]
        rfl
      | none =>
        show (do
          let gids ← hybridAssignE doc rest (next + 1)
            ((cg.values_set, gidStr next) :: fmap)
          pure (gidStr next :: gids) : Except String _) = _
        rw [hybridAssignE_ok doc rest (next + 1) ((cg.values_set, gidStr next) :: fmap)]
        rfl

/-- The `orig_group_id` computation with its guarded subscripts checked. -/
def orig_group_id_of_E (doc : List OptionRec) (final_values_set : Finset PyStr)
    (v : PyStr) : Except String PyStr :=
  let ogs := value_to_original_group_sets doc v
  if ogs = [] then Except.ok []
  else
    match ogs.find? (fun s =>
        decide (s = final_values_set) && (original_group_set_to_id doc s).isSome) with
    | some s => o2iSubscriptE doc s
    | none =>
      match ogs.head? with
      | some s0 => Except.ok ((original_group_set_to_id doc s0).getD [])
      | none => Except.ok []

theorem orig_group_id_of_E_ok (doc : List OptionRec) (fv : Finset PyStr) (v : PyStr) :
    orig_group_id_of_E doc fv v = Except.ok (orig_group_id_of doc fv v) := by
  simp only [orig_group_id_of_E, orig_group_id_of]
  by_cases h : value_to_original_group_sets doc v = []
  · simp only [if_pos h]
  · simp only [if_neg h]
    cases hfind : (value_to_original_group_sets doc v).find? (fun s =>
        decide (s = fv) && (original_group_set_to_id doc s).isSome) with
    | some s =>
      have hp := List.find?_some hfind
      rw [Bool.and_eq_true] at hp
      obtain ⟨g, hg⟩ := Option.isSome_iff_exists.mp hp.2
      dsimp only
      rw [hg]
      unfold o2iSubscriptE
      rw [hg]
      rfl
    | none =>
      cases (value_to_original_group_sets doc v).head? <;> rfl

/-- One report row with its guarded subscripts checked. -/
def mkRowE (doc : List OptionRec) (sr : Nat) (cg : CleanGroup) (gid v : PyStr) :
    Except String Row := do
  let ogid ← orig_group_id_of_E doc cg.values_set v
  let orig_deps_set := value_to_original_deps doc v
  let final_deps_set := cg.dependents.toFinset
  pure
    { sr := sr
      value := v
      orig_name := value_to_original_name doc v
      final_group_name := joinComma cg.names
      orig_group_id := ogid
      final_gid := gid
      group_status := group_status (value_to_original_group_sets doc v) cg.values_set
      dependency_status :=
        if orig_deps_set = final_deps_set then nonModifiedStr else modifiedStr
      orig_deps_joined := joinSemicolon (orig_deps_set.sort (· ≤ ·))
      final_deps_joined := joinSemicolon (final_deps_set.sort (· ≤ ·)) }

theorem mkRowE_ok (doc : List OptionRec) (sr : Nat) (cg : CleanGroup) (gid v : PyStr) :
    mkRowE doc sr cg gid v = Except.ok (mkRow doc sr cg gid v) := by
  unfold mkRowE
  rw [orig_group_id_of_E_ok]
  rfl

/-- The whole reconciliation pass with every fallible operation checked:
    the first-seen-name loop, the hybrid numbering loop, and the per-row
    identifier lookups. -/
def export_rows_E (doc : List OptionRec) : Except String (List Row) := do
  let _pairs ← origNamePairsE doc
  let gids ← hybridAssignE doc (cleaned_groups doc) (doc.length + 1) []
  let triples := ((cleaned_groups doc).zip gids).flatMap
    (fun p => p.1.values.map (fun v => (p.1, p.2, v)))
  mapME (fun q => mkRowE doc (q.1 + 1) q.2.1 q.2.2.1 q.2.2.2) triples.enum

theorem export_rows_E_ok (doc : List OptionRec) :
    export_rows_E doc = Except.ok (export_rows doc) := by
  unfold export_rows_E
  rw [origNamePairsE_ok]
  show (do
    let gids ← hybridAssignE doc (cleaned_groups doc) (doc.length + 1) []
    let triples := ((cleaned_groups doc).zip gids).flatMap
      (fun p => p.1.values.map (fun v => (p.1, p.2, v)))
    mapME (fun q => mkRowE doc (q.1 + 1) q.2.1 q.2.2.1 q.2.2.2) triples.enum :
      Except String _) = _
  rw [hybridAssignE_ok]
  show mapME _ _ = _
  rw [mapME_ok (g := fun q : Nat × CleanGroup × PyStr × PyStr =>
      mkRow doc (q.1 + 1) q.2.1 q.2.2.1 q.2.2.2)
    (fun q _ => mkRowE_ok doc (q.1 + 1) q.2.1 q.2.2.1 q.2.2.2)]
  rfl


/- ------------------------------------------------------------------ -/
/- Dependents with a possibly missing id attribute.                   -/
/- `dep_id = d.get("id")` (line 126) has NO default: a <dependent>     -/
/- element without an id yields Python None, which flows through the   -/
/- sets unharmed but makes ET.tostring raise                           -/
/- "TypeError: cannot serialize None" when the rebuilt element is      -/
/- serialized by _prettify_xml.  The PyStr-id model above covers only  -/
/- documents whose dependents all carry an id; this section models the -/
/- general case.                                                       -/
/- ------------------------------------------------------------------ -/

/-- A `<dependent>` child element; `id = none` models a missing id
    attribute (`d.get("id")` returns None), `name` defaults to the empty
    string (`d.get("name", "")`). -/
structure DependentX where
  id : Option PyStr
  name : PyStr
deriving DecidableEq

/-- An `<option>` element whose dependents may lack the id attribute. -/
structure OptionRecX where
  name : PyStr
  value : PyStr
  deps : List DependentX
deriving DecidableEq

def depIdsX (o : OptionRecX) : List (Option PyStr) := o.deps.map (fun d => d.id)

def depIdSetX (o : OptionRecX) : Finset (Option PyStr) := (depIdsX o).toFinset

/-- One flattened record; the dependent-id set may contain `none`. -/
structure FlatItemX where
  name : PyStr
  value : PyStr
  deps : Finset (Option PyStr)
deriving DecidableEq

def flatOfOptionX (o : OptionRecX) : List FlatItemX :=
  (_split_field o.name).enum.map (fun p =>
    { name := p.2, value := pairValue (_split_field o.value) p.1, deps := depIdSetX o })

def flattenX (doc : List OptionRecX) : List FlatItemX := doc.flatMap flatOfOptionX

def value_to_depsX (flat : List FlatItemX) (v : PyStr) : Finset (Option PyStr) :=
  ((flat.filter (fun it => it.value = v)).map (fun it => it.deps)).foldr (· ∪ ·) ∅

structure MergedGroupX where
  names : List PyStr
  values : List PyStr
  deps : Finset (Option PyStr)
deriving DecidableEq

def insertItemX (key : Finset (Option PyStr)) (n v : PyStr) :
    List MergedGroupX → List MergedGroupX
  | [] => [⟨[n], [v], key⟩]
  | g :: gs =>
    if g.deps = key then ⟨addNew g.names n, addNew g.values v, g.deps⟩ :: gs
    else g :: insertItemX key n v gs

def mergeGroupsX (u : PyStr → Finset (Option PyStr)) (flat : List FlatItemX) :
    List MergedGroupX :=
  flat.foldl (fun gs it => insertItemX (u it.value) it.name it.value gs) []

def mergedX (doc : List OptionRecX) : List MergedGroupX :=
  mergeGroupsX (value_to_depsX (flattenX doc)) (flattenX doc)

/-- `dep_id_to_name` keyed by the possibly-missing id. -/
def dep_id_to_nameX (doc : List OptionRecX) (i : Option PyStr) : PyStr :=
  match (doc.flatMap (fun o => o.deps)).find? (fun d => d.id = i) with
  | some d => d.name
  | none => []

/-- The ids actually present in a dependent-set. -/
def someIds (s : Finset (Option PyStr)) : Finset PyStr :=
  s.biUnion (fun x => match x with | some i => {i} | none => ∅)

/-- STEP 4 for one group together with its serialization: `ET.tostring`
    (inside `_prettify_xml`) raises TypeError when a dependent's id
    attribute is None, discarding all output; with every id present the
    dependents are emitted in lexicographic id order as before (Python
    sorts the set with key=str, and str of an id string is itself). -/
def rebuildOptionX_E (doc : List OptionRecX) (g : MergedGroupX) :
    Except String OptionRec :=
  if none ∈ g.deps then
    Except.error "TypeError: cannot serialize None (type NoneType)"
  else
    Except.ok
      { name := joinComma g.names
        value := joinComma g.values
        deps := ((someIds g.deps).sort (· ≤ ·)).map
          (fun i => ⟨i, dep_id_to_nameX doc (some i)⟩) }

/-- `generate_clean_xml_from_root` on documents whose dependents may lack
    an id, including the serialization step where Python can raise. -/
def generate_clean_xml_from_rootX_E (doc : List OptionRecX) :
    Except String (List OptionRec) :=
  mapME (rebuildOptionX_E doc) (mergedX doc)

/-- Forget the id distinction: a document all of whose dependents carry an
    id projects onto the PyStr-id model used above. -/
def projectDoc (doc : List OptionRecX) : List OptionRec :=
  doc.map (fun o =>
    { name := o.name
      value := o.value
      deps := o.deps.map (fun d => ⟨d.id.getD [], d.name⟩) })

theorem insertItemX_nil (key : Finset (Option PyStr)) (n v : PyStr) :
    insertItemX key n v [] = [⟨[n], [v], key⟩] := rfl

theorem insertItemX_cons (key : Finset (Option PyStr)) (n v : PyStr)
    (g : MergedGroupX) (gs : List MergedGroupX) :
    insertItemX key n v (g :: gs) =
      if g.deps = key then ⟨addNew g.names n, addNew g.values v, g.deps⟩ :: gs
      else g :: insertItemX key n v gs := rfl

theorem value_to_depsX_cons (it : FlatItemX) (l : List FlatItemX) (v : PyStr) :
    value_to_depsX (it :: l) v =
      if it.value = v then it.deps ∪ value_to_depsX l v else value_to_depsX l v := by
  unfold value_to_depsX
  rw [List.filter_cons]
  by_cases h : it.value = v <;> simp [h]

theorem mem_value_to_depsX {flat : List FlatItemX} {v : PyStr} {x : Option PyStr} :
    x ∈ value_to_depsX flat v ↔ ∃ it ∈ flat, it.value = v ∧ x ∈ it.deps := by
  induction flat with
  | nil => simp [value_to_depsX]
  | cons it l ih =>
    rw [value_to_depsX_cons]
    by_cases h : it.value = v
    · simp only [if_pos h, Finset.mem_union, ih]
      constructor
      · rintro (hx | ⟨it', h1, h2, h3⟩)
        · exact ⟨it, by simp, h, hx⟩
        · exact ⟨it', by simp [h1], h2, h3⟩
      · rintro ⟨it', h1, h2, h3⟩
        rcases List.mem_cons.mp h1 with rfl | h1
        · exact Or.inl h3
        · exact Or.inr ⟨it', h1, h2, h3⟩
    · rw [if_neg h, ih]
      constructor
      · rintro ⟨it', h1, h2, h3⟩
        exact ⟨it', by simp [h1], h2, h3⟩
      · rintro ⟨it', h1, h2, h3⟩
        rcases List.mem_cons.mp h1 with rfl | h1
        · exact absurd h2 h
        · exact ⟨it', h1, h2, h3⟩

theorem flatOfOptionX_deps {o : OptionRecX} {it : FlatItemX}
    (h : it ∈ flatOfOptionX o) : it.deps = depIdSetX o := by
  unfold flatOfOptionX at h
  rcases List.mem_map.mp h with ⟨p, _, hp⟩
  rw [← hp]

theorem insertItemX_deps_cases {key : Finset (Option PyStr)} {n v : PyStr} :
    ∀ {gs : List MergedGroupX} {g' : MergedGroupX},
      g' ∈ insertItemX key n v gs →
      g'.deps = key ∨ ∃ g ∈ gs, g'.deps = g.deps := by
  intro gs
  induction gs with
  | nil =>
    intro g' h
    rw [insertItemX_nil, List.mem_singleton] at h
    subst h
    exact Or.inl rfl
  | cons g gs ih =>
    intro g' h
    rw [insertItemX_cons] at h
    by_cases hk : g.deps = key
    · rw [if_pos hk] at h
      rcases List.mem_cons.mp h with rfl | h
      · exact Or.inl hk
      · exact Or.inr ⟨g', List.mem_cons_of_mem _ h, rfl⟩
    · rw [if_neg hk] at h
      rcases List.mem_cons.mp h with rfl | h
      · exact Or.inr ⟨g', by simp, rfl⟩
      · rcases ih h with h1 | ⟨g2, h2, h3⟩
        · exact Or.inl h1
        · exact Or.inr ⟨g2, List.mem_cons_of_mem _ h2, h3⟩

theorem mergeGroupsX_foldl_deps {u : PyStr → Finset (Option PyStr)} :
    ∀ (flat : List FlatItemX) (gs : List MergedGroupX), ∀ g' ∈
      flat.foldl (fun gs it => insertItemX (u it.value) it.name it.value gs) gs,
      (∃ it ∈ flat, g'.deps = u it.value) ∨ ∃ g ∈ gs, g'.deps = g.deps := by
  intro flat
  induction flat with
  | nil =>
    intro gs g' hg'
    exact Or.inr ⟨g', hg', rfl⟩
  | cons it t ih =>
    intro gs g' hg'
    rw [List.foldl_cons] at hg'
    rcases ih _ g' hg' with ⟨it', h1, h2⟩ | ⟨g, hgmem, hgd⟩
    · exact Or.inl ⟨it', List.mem_cons_of_mem _ h1, h2⟩
    · rcases insertItemX_deps_cases hgmem with hk | ⟨g2, h2m, h2d⟩
      · exact Or.inl ⟨it, by simp, hgd.trans hk⟩
      · exact Or.inr ⟨g2, h2m, hgd.trans h2d⟩

/-- Every merged group's dependent set is the unified set of one of the
    flattened values. -/
theorem mergedX_deps {doc : List OptionRecX} {g : MergedGroupX}
    (h : g ∈ mergedX doc) :
    ∃ it ∈ flattenX doc, g.deps = value_to_depsX (flattenX doc) it.value := by
  rcases mergeGroupsX_foldl_deps (flattenX doc) [] g h with h1 | ⟨g2, h2, _⟩
  · exact h1
  · exact absurd h2 (List.not_mem_nil _)

/-- When every dependent of every option carries an id attribute, no merged
    group's dependent set contains `none`. -/
theorem mergedX_no_none {doc : List OptionRecX}
    (h : ∀ o ∈ doc, ∀ d ∈ o.deps, d.id ≠ none) :
    ∀ g ∈ mergedX doc, none ∉ g.deps := by
  intro g hg hn
  rcases mergedX_deps hg with ⟨it, _, hdeps⟩
  rw [hdeps] at hn
  rcases mem_value_to_depsX.mp hn with ⟨it', h1, _, h3⟩
  have h1' : it' ∈ doc.flatMap flatOfOptionX := h1
  rcases List.mem_flatMap.mp h1' with ⟨o, ho, hio⟩
  rw [flatOfOptionX_deps hio] at h3
  simp only [depIdSetX, depIdsX, List.mem_toFinset, List.mem_map] at h3
  rcases h3 with ⟨d, hd, hid⟩
  exact h o ho d hd hid

theorem mapME_isOk {f : α → Except String β} {l : List α}
    (h : ∀ x ∈ l, ∃ y, f x = Except.ok y) :
    ∃ ys, mapME f l = Except.ok ys := by
  induction l with
  | nil => exact ⟨[], rfl⟩
  | cons x t ih =>
    rcases h x (by simp) with ⟨y, hy⟩
    rcases ih (fun z hz => h z (List.mem_cons_of_mem _ hz)) with ⟨ys, hys⟩
    refine ⟨y :: ys, ?_⟩
    unfold mapME
    rw [hy, hys]
    rfl

/-- A one-option document whose single dependent lacks the id attribute:
    `<option name="A" value="1"><dependent name="X"/></option>`. -/
def c5BadDoc : List OptionRecX :=
  [{ name := pyOfString "A"
     value := pyOfString "1"
     deps := [{ id := none, name := pyOfString "X" }] }]

/-- A well-formed one-option document whose dependent does carry an id. -/
def c5GoodDoc : List OptionRecX :=
  [{ name := pyOfString "A"
     value := pyOfString "1"
     deps := [{ id := some (pyOfString "d1"), name := pyOfString "X" }] }]

/-- C5 counterexample: on a well-formed document containing a dependent
    element without an id attribute, `d.get("id")` (line 126) yields None,
    and serializing the rebuilt element (`ET.tostring` inside
    `_prettify_xml`) raises TypeError, aborting
    `generate_clean_xml_from_root` — refuting the claim that the pipeline
    never raises on well-formed input. -/
theorem claim_C5_counterexample :
    generate_clean_xml_from_rootX_E c5BadDoc =
      Except.error "TypeError: cannot serialize None (type NoneType)" := rfl

/-- C5 (amended): on every well-formed document in which every dependent
    element carries an id attribute, the canonicalizer — including the
    serialization of each rebuilt element — and the reconciliation pass run
    to completion: the error-instrumented versions (with every Python
    list/dict subscript and the `ET.tostring` call checked) return `ok`
    with exactly the fallback-based results, never an exception. -/
theorem claim_C5_amended (doc : List OptionRecX)
    (h : ∀ o ∈ doc, ∀ d ∈ o.deps, d.id ≠ none) :
    (∃ out, generate_clean_xml_from_rootX_E doc = Except.ok out) ∧
    generate_clean_E (projectDoc doc) =
      Except.ok (generate_clean_xml_from_root (projectDoc doc)) ∧
    export_rows_E (projectDoc doc) = Except.ok (export_rows (projectDoc doc)) := by
  refine ⟨?_, generate_clean_E_ok _, export_rows_E_ok _⟩
  unfold generate_clean_xml_from_rootX_E
  apply mapME_isOk
  intro g hg
  unfold rebuildOptionX_E
  rw [if_neg (mergedX_no_none h g hg)]
  exact ⟨_, rfl⟩

/-- Witness for C5 (amended) on a concrete document with all ids present. -/
theorem claim_C5_witness :
    (∀ o ∈ c5GoodDoc, ∀ d ∈ o.deps, d.id ≠ none) ∧
    ((∃ out, generate_clean_xml_from_rootX_E c5GoodDoc = Except.ok out) ∧
     generate_clean_E (projectDoc c5GoodDoc) =
       Except.ok (generate_clean_xml_from_root (projectDoc c5GoodDoc)) ∧
     export_rows_E (projectDoc c5GoodDoc) =
       Except.ok (export_rows (projectDoc c5GoodDoc))) :=
  ⟨by decide, claim_C5_amended c5GoodDoc (by decide)⟩
